import Mathlib

set_option maxRecDepth 1000000

/-!
Verification of the Falcon signature compression/decompression codec and of the
spec-level signing/verification pipeline of the `falcon-rust` crate.

The definitions in the first part of this file are shallow embeddings of
`src/falcon-rust/src/encoding.rs` (`compress`, `compress_coefficient`,
`decompress`).  Rust `u8`/`usize` values are modelled as `Nat`, `i16` values as
`Int` with explicit two's-complement wrapping (`wrap16`) at the points where the
Rust code performs 16-bit arithmetic (release-mode wrapping semantics; Rust's
shift `<<` truncates silently in both profiles).  Rust slice indexing `x[i]`
panics when `i` is out of bounds; this is modelled by the `PRes.crash` outcome.
A Rust `return None` is modelled by `PRes.fail`.
-/

/-- Outcome of a Rust function returning `Option<T>`: `ok` is `Some`, `fail` is
`None`, and `crash` models a Rust panic (out-of-bounds slice index or debug
overflow). -/
inductive PRes (α : Type) where
  | ok : α → PRes α
  | fail : PRes α
  | crash : PRes α
deriving Repr, DecidableEq

instance : Monad PRes where
  pure := PRes.ok
  bind := fun m f =>
    match m with
    | .ok a => f a
    | .fail => .fail
    | .crash => .crash

/-- Byte strings (`&[u8]` / `Vec<u8>`): lists of naturals, well-formed when every
entry is below 256. -/
abbrev Bytes := List Nat

/-- Length in bits of the `BitVec::from_bytes` view of a byte string. -/
def bitLen (x : Bytes) : Nat := 8 * x.length

/-- Bit `i` of the `BitVec::from_bytes(x)` view: bit `7 - i % 8` of byte `i / 8`
(most significant bit first inside each byte). -/
def bitAt (x : Bytes) (i : Nat) : Bool :=
  Nat.testBit (x.getD (i / 8) 0) (7 - i % 8)

/-- Rust slice read `x[i]`: panics (`crash`) when out of bounds. -/
def rdByte (x : Bytes) (i : Nat) : PRes Nat :=
  if i < x.length then .ok (x.getD i 0) else .crash

/-- Two's-complement wrap into the `i16` range, modelling Rust release-mode
16-bit overflow and the silent truncation of `<<` on `i16`. -/
def wrap16 (z : Int) : Int := (z + 32768) % 65536 - 32768

/-! ## `compress` (encoding.rs lines 54-110) -/

/-- Embedding of `compress_coefficient` (encoding.rs lines 104-110): bit length
`1 + 7 + high + 1` and the data byte `(sign << 7) | low`. -/
def compress_coefficient (c : Int) : Nat × Nat :=
  let sign : Nat := if c < 0 then 1 else 0
  let abs := c.natAbs
  let low := abs &&& 127
  let high := abs >>> 7
  (1 + 7 + high + 1, (sign <<< 7) ||| low)

/-- Total encoded bit length of a coefficient vector. -/
def totalLength (v : List Int) : Nat :=
  (v.map (fun c => (compress_coefficient c).1)).sum

/-- Rust `bytes[i] |= v` on a `Vec<u8>`: panics when `i` is out of bounds. -/
def orByte (bytes : Bytes) (i v : Nat) : PRes Bytes :=
  if i < bytes.length then .ok (bytes.set i (bytes.getD i 0 ||| v)) else .crash

/-- Embedding of the per-coefficient body of `compress`'s main loop
(encoding.rs lines 75-83): write the data byte straddling two bytes, then the
terminating 1 bit. -/
def emitCoeff (bytes : Bytes) (counter len coeff : Nat) : PRes Bytes := do
  let cdiv8 := counter / 8
  let cmod8 := counter % 8
  let b1 ← orByte bytes cdiv8 (coeff >>> cmod8)
  let b2 ← orByte b1 (cdiv8 + 1) ((coeff <<< (8 - cmod8)) % 256)
  let cldiv8 := (counter + len - 1) / 8
  let clmod8 := (counter + len - 1) % 8
  let b3 ← orByte b2 cldiv8 (128 >>> clmod8)
  let b4 ← orByte b3 (cldiv8 + 1) ((128 <<< (8 - clmod8)) % 256)
  pure b4

/-- The `for` loop of `compress` over all-but-the-last coefficients. -/
def emitLoop (bytes : Bytes) (counter : Nat) :
    List (Nat × Nat) → PRes (Bytes × Nat)
  | [] => pure (bytes, counter)
  | (len, coeff) :: rest => do
      let b ← emitCoeff bytes counter len coeff
      emitLoop b (counter + len) rest

/-- Embedding of `compress` (encoding.rs lines 54-101).  Returns `fail` when the
total encoded length exceeds the byte budget or the coefficient vector is
empty; otherwise writes all coefficients into a zeroed buffer of
`byte_length` bytes, treating the last coefficient's second terminator write
with the source's bounds guard. -/
def compress (v : List Int) (byte_length : Nat) : PRes Bytes :=
  let lcs := v.map compress_coefficient
  let total := (lcs.map (fun p => p.1)).sum
  if total > byte_length * 8 then .fail
  else if v.isEmpty then .fail
  else do
    let bytes0 : Bytes := List.replicate byte_length 0
    let (b, counter) ← emitLoop bytes0 0 (lcs.take (v.length - 1))
    let (len, coeff) := lcs.getLastD (0, 0)
    let cdiv8 := counter / 8
    let cmod8 := counter % 8
    let b1 ← orByte b cdiv8 (coeff >>> cmod8)
    let b2 ← orByte b1 (cdiv8 + 1) ((coeff <<< (8 - cmod8)) % 256)
    let cldiv8 := (counter + len - 1) / 8
    let clmod8 := (counter + len - 1) % 8
    let b3 ← orByte b2 cldiv8 (128 >>> clmod8)
    if cldiv8 + 1 < byte_length then do
      let b4 ← orByte b3 (cldiv8 + 1) ((128 <<< (8 - clmod8)) % 256)
      pure b4
    else if (128 <<< (8 - clmod8)) % 256 ≠ 0 then .fail
    else pure b3

/-! ## `decompress` (encoding.rs lines 158-272) -/

/-- High-bit scan of a non-last round (encoding.rs lines 186-195), written with
a structural fuel argument so that it evaluates in the kernel: count zero bits
until the terminating 1; reject when the count reaches 95 or the scan stops one
bit short of the end of the buffer.  Returns the count and the bit index just
past the terminator.  The fuel is one more than the number of bits left in the
buffer, so the `0` case is unreachable from `scanHigh` (each step consumes one
bit, and an index at or past the end crashes first, as `bitvector[index]`
panics in the source). -/
def scanHighF (x : Bytes) : Nat → Nat → Nat → PRes (Nat × Nat)
  | 0, _, _ => .crash
  | fuel + 1, idx, high =>
    if idx < bitLen x then
      if bitAt x idx then .ok (high, idx + 1)
      else if high + 1 = 95 ∨ idx + 2 = bitLen x then .fail
      else scanHighF x fuel (idx + 1) (high + 1)
    else .crash

/-- The non-last-round high-bit scan from bit `idx` with running count `high`. -/
def scanHigh (x : Bytes) (idx high : Nat) : PRes (Nat × Nat) :=
  scanHighF x (bitLen x - idx + 1) idx high

/-- One non-last round of `decompress` (encoding.rs lines 167-202): bounds
guard, sign bit, the two-byte low-bits read (whose second read `x[d8 + 1]` is
unguarded in the source and panics at the right edge of the buffer), and the
high-bit scan.  Returns `(sign_negative, low, high, next_index)`. -/
def roundNL (x : Bytes) (idx : Nat) : PRes (Bool × Nat × Nat × Nat) :=
  if idx + 8 ≥ bitLen x then .fail
  else
    let sgn := bitAt x idx
    let i1 := idx + 1
    let d8 := i1 / 8
    let m8 := i1 % 8
    do
      let b0 ← rdByte x d8
      let b1 ← rdByte x (d8 + 1)
      let low := (((b0 <<< m8) ||| (b1 >>> (8 - m8))) &&& 255) >>> 1
      let (high, i2) ← scanHigh x (i1 + 7) 0
      pure (sgn, low, high, i2)

/-- The decoded integer of a round: `sign * ((high_bits << 7) | low_bits)` in
Rust `i16` arithmetic (shift truncates, release-mode multiply wraps). -/
def composeCoeff (sgn : Bool) (low high : Nat) : Int :=
  wrap16 ((if sgn then -1 else 1) * wrap16 (Int.ofNat ((high <<< 7) ||| low)))

/-- The `for _ in 0..n-1` loop of `decompress`: `k` non-last rounds starting at
bit `idx` with abort flag `ab`; the flag is ORed with the negative-zero test
`low == 0 && high == 0 && sign == -1` of each round (encoding.rs line 198). -/
def dloop (x : Bytes) : Nat → Nat → Bool → PRes (List Int × Nat × Bool)
  | 0, idx, ab => pure ([], idx, ab)
  | k + 1, idx, ab => do
      let (sgn, low, high, i2) ← roundNL x idx
      let ab2 := ab || (low == 0 && high == 0 && sgn)
      let c := composeCoeff sgn low high
      let (cs, i3, ab3) ← dloop x k i2 ab2
      pure (c :: cs, i3, ab3)

/-- High-bit scan of the last round (encoding.rs lines 236-242), with the same
fuel discipline as `scanHighF`: no 95 cap; reject only when the scan runs to
the end of the buffer without a terminator. -/
def scanHLF (x : Bytes) : Nat → Nat → Nat → PRes (Nat × Nat)
  | 0, _, _ => .crash
  | fuel + 1, idx, high =>
    if idx < bitLen x then
      if bitAt x idx then .ok (high, idx + 1)
      else if idx + 1 = bitLen x then .fail
      else scanHLF x fuel (idx + 1) (high + 1)
    else .crash

/-- The last-round high-bit scan from bit `idx` with running count `high`. -/
def scanHL (x : Bytes) (idx high : Nat) : PRes (Nat × Nat) :=
  scanHLF x (bitLen x - idx + 1) idx high

/-- The last round of `decompress` (encoding.rs lines 205-251): bounds guards,
sign bit, the guarded low-bits read, the uncapped high-bit scan, and the
composed coefficient.  Returns `(sign_negative, low, high, coefficient,
next_index)` with `next_index` one past the terminator. -/
def roundL (x : Bytes) (idx : Nat) : PRes (Bool × Nat × Nat × Int × Nat) :=
  if idx + 8 ≥ bitLen x then .fail
  else if bitLen x = idx then .fail
  else
    let sgn := bitAt x idx
    let i1 := idx + 1
    let d8 := i1 / 8
    let m8 := i1 % 8
    do
      let b0 ← rdByte x d8
      let low0 := b0 <<< m8
      let low1 ←
        if m8 ≠ 0 ∧ d8 + 1 < x.length then do
          let b1 ← rdByte x (d8 + 1)
          pure (low0 ||| (b1 >>> (8 - m8)))
        else if m8 ≠ 0 then .fail
        else pure low0
      let low := (low1 &&& 255) >>> 1
      let i2 := i1 + 7
      if bitLen x = i2 then .fail
      else do
        let (high, i3) ← scanHL x i2 0
        pure (sgn, low, high, composeCoeff sgn low high, i3)

/-- The padding check of `decompress` (encoding.rs lines 253-269): the remaining
bits of the byte holding position `idx`, read through the `None`-safe
`bitvector.get`, and then all remaining whole bytes must be zero. -/
def paddingBad (x : Bytes) (idx : Nat) : Bool :=
  let d8 := idx / 8
  let m8 := idx % 8
  ((List.range (8 - m8)).any fun k =>
      decide (idx + k < bitLen x) && bitAt x (idx + k)) ||
  ((x.drop (d8 + 1 - (if m8 = 0 then 1 else 0))).any fun b => b != 0)

/-- Embedding of `decompress` (encoding.rs lines 158-272): `n - 1` non-last
rounds, the last round, the abort/negative-zero check, and the padding check.
For `n = 0` the Rust source computes `0..n-1` on a `usize`, which overflows;
this is modelled as `crash`. -/
def decompress (x : Bytes) (n : Nat) : PRes (List Int) :=
  match n with
  | 0 => .crash
  | k + 1 => do
      let (cs, j1, ab) ← dloop x k 0 false
      let (sgn, low, high, c, j2) ← roundL x j1
      if ab || (low == 0 && high == 0 && sgn) then .fail
      else if paddingBad x j2 then .fail
      else pure (cs ++ [c])

/-! ## Reference bit stream

The clean positional description of the encoding, mirroring the deprecated
reference routine `compress_slow` (encoding.rs lines 12-37): sign bit, the
seven low bits of `|c|` most significant first, `|c| >> 7` zero bits, and a
terminating 1 bit. -/

/-- Reference encoding of one coefficient as a bit list. -/
def encOne (c : Int) : List Bool :=
  decide (c < 0) ::
    (((List.range 7).map fun k => Nat.testBit (c.natAbs &&& 127) (6 - k)) ++
      (List.replicate (c.natAbs >>> 7) false ++ [true]))

/-- Reference encoding of a coefficient vector as a bit stream. -/
def enc (v : List Int) : List Bool := (v.map encOne).flatten

theorem length_encOne (c : Int) :
    (encOne c).length = (compress_coefficient c).1 := by
  simp [encOne, compress_coefficient]
  omega

theorem length_enc (v : List Int) : (enc v).length = totalLength v := by
  induction v with
  | nil => simp [enc, totalLength]
  | cons c cs ih =>
      simp only [enc, totalLength, List.map_cons, List.flatten_cons,
        List.length_append, List.sum_cons] at *
      rw [length_encOne, ih]

theorem enc_cons (c : Int) (cs : List Int) : enc (c :: cs) = encOne c ++ enc cs := by
  simp [enc]

theorem totalLength_cons (c : Int) (cs : List Int) :
    totalLength (c :: cs) = (9 + c.natAbs >>> 7) + totalLength cs := by
  simp [totalLength, compress_coefficient]
  omega

theorem nine_le_len (c : Int) : 9 ≤ (compress_coefficient c).1 := by
  simp [compress_coefficient]

theorem coeffByte_lt (c : Int) : (compress_coefficient c).2 < 256 := by
  have h1 : ((if c < 0 then 1 else 0) <<< 7 : Nat) < 2 ^ 8 := by
    split <;> decide
  have h2 : (c.natAbs &&& 127) < 2 ^ 8 := by
    have := @Nat.and_le_right c.natAbs 127
    omega
  simpa [compress_coefficient] using Nat.bitwise_lt_two_pow h1 h2

/-! ## Small bit-arithmetic toolkit -/

theorem testBit_false_of_lt256 {a i : Nat} (h : a < 256) (hi : 8 ≤ i) :
    a.testBit i = false := by
  refine Nat.testBit_eq_false_of_lt (lt_of_lt_of_le h ?_)
  calc (256 : Nat) = 2 ^ 8 := by norm_num
  _ ≤ 2 ^ i := Nat.pow_le_pow_right (by norm_num) hi

theorem lor_lt256 {a b : Nat} (ha : a < 256) (hb : b < 256) : (a ||| b) < 256 := by
  have : (a ||| b) < 2 ^ 8 := Nat.bitwise_lt_two_pow (by norm_num [ha]) (by norm_num [hb])
  simpa using this

/-- Every byte read through `getD` from a well-formed byte string is below 256
(the default 0 covers out-of-range reads). -/
theorem getD_lt256 {x : Bytes} (hb : ∀ b ∈ x, b < 256) (i : Nat) :
    x.getD i 0 < 256 := by
  rcases h : x[i]? with _ | b
  · simp [List.getD_eq_getElem?_getD, h]
  · have : b ∈ x := List.getElem?_mem h
    simp [List.getD_eq_getElem?_getD, h]
    exact hb b this

theorem wrap16_eq_self {z : Int} (h1 : -32768 ≤ z) (h2 : z < 32768) :
    wrap16 z = z := by
  unfold wrap16
  omega

/-- `(high <<< 7) ||| low = 128 * high + low` for `low < 128`. -/
theorem hilo_eq (high low : Nat) (hl : low < 128) :
    (high <<< 7) ||| low = 128 * high + low := by
  have h128 : (128 : Nat) * high + low = 2 ^ 7 * high + low := by norm_num
  refine Nat.eq_of_testBit_eq fun j => ?_
  rw [h128, Nat.testBit_mul_pow_two_add high (by omega) j, Nat.testBit_lor,
    Nat.testBit_shiftLeft]
  by_cases hj : j < 7
  · simp [hj, Nat.not_le.mpr hj]
  · have hlow : low.testBit j = false := by
      refine Nat.testBit_eq_false_of_lt (lt_of_lt_of_le hl ?_)
      calc (128 : Nat) = 2 ^ 7 := by norm_num
      _ ≤ 2 ^ j := Nat.pow_le_pow_right (by norm_num) (by omega)
    simp [hj, Nat.le_of_not_lt (by omega : ¬ j < 7), hlow]

/-- Byte-wise well-formedness stated through `getD` (out-of-range reads give 0). -/
def wfB (x : Bytes) : Prop := ∀ p, x.getD p 0 < 256

theorem wfB_of_mem {x : Bytes} (hb : ∀ b ∈ x, b < 256) : wfB x :=
  fun p => getD_lt256 hb p

theorem getD_set (x : Bytes) (i v p : Nat) :
    (x.set i v).getD p 0 = if i = p ∧ i < x.length then v else x.getD p 0 := by
  simp only [List.getD_eq_getElem?_getD, List.getElem?_set]
  by_cases h1 : i = p
  · subst h1
    by_cases h2 : i < x.length
    · simp [h2]
    · rw [List.getElem?_eq_none (by omega)]
      simp [h2]
  · simp [h1]

theorem wfB_set {x : Bytes} (hx : wfB x) {v : Nat} (hv : v < 256) (i : Nat) :
    wfB (x.set i v) := by
  intro p
  rw [getD_set]
  split
  · exact hv
  · exact hx p

/-- Effect of `bytes[i] |= v` on the bit view: bit `j` picks up the matching bit
of `v` when `j` lies in byte `i`. -/
theorem bitAt_orWrite {x : Bytes} {i : Nat} (hi : i < x.length) (v j : Nat) :
    bitAt (x.set i (x.getD i 0 ||| v)) j =
      (bitAt x j || (decide (j / 8 = i) && Nat.testBit v (7 - j % 8))) := by
  unfold bitAt
  rw [getD_set]
  by_cases h : i = j / 8
  · subst h
    simp [hi, Nat.testBit_lor]
  · have hne : ¬ (i = j / 8 ∧ i < x.length) := fun hc => h hc.1
    rw [if_neg hne]
    have hd : (decide (j / 8 = i)) = false := by
      simp only [decide_eq_false_iff_not]
      exact fun hc => h hc.symm
    simp [hd]

theorem orByte_ok {x : Bytes} {i : Nat} (hi : i < x.length) (v : Nat) :
    orByte x i v = .ok (x.set i (x.getD i 0 ||| v)) := by
  simp [orByte, hi]

theorem length_orWrite (x : Bytes) (i v : Nat) :
    (x.set i (x.getD i 0 ||| v)).length = x.length := List.length_set x i _

theorem wfB_orWrite {x : Bytes} (hx : wfB x) {v : Nat} (hv : v < 256) (i : Nat) :
    wfB (x.set i (x.getD i 0 ||| v)) :=
  wfB_set hx (lor_lt256 (hx i) hv) i

/-! ## Facts about `composeCoeff` -/

theorem composeCoeff_small (sgn : Bool) (low high : Nat) (hl : low < 128)
    (hm : 128 * high + low < 32768) :
    composeCoeff sgn low high =
      (if sgn then -1 else 1) * (128 * high + low : Int) := by
  unfold composeCoeff
  rw [hilo_eq high low hl]
  have h1 : wrap16 (Int.ofNat (128 * high + low)) = (128 * high + low : Int) := by
    simp only [Int.ofNat_eq_natCast]
    unfold wrap16
    push_cast
    omega
  rw [h1]
  refine wrap16_eq_self ?_ ?_
  · cases sgn <;> simp <;> omega
  · cases sgn <;> simp <;> omega

/-- Composing the parts of the reference encoding of `c` recovers `c`, as long
as `|c|` fits in 15 bits (no `i16` truncation). -/
theorem composeCoeff_encOne {c : Int} (hc : c.natAbs < 32768) :
    composeCoeff (decide (c < 0)) (c.natAbs &&& 127) (c.natAbs >>> 7) = c := by
  have hlow : c.natAbs &&& 127 = c.natAbs % 128 := by
    have := Nat.and_pow_two_sub_one_eq_mod c.natAbs 7
    norm_num at this
    exact this
  have hhigh : c.natAbs >>> 7 = c.natAbs / 128 := by
    rw [Nat.shiftRight_eq_div_pow]
  have hl : c.natAbs &&& 127 < 128 := by omega
  have hsum : 128 * (c.natAbs >>> 7) + (c.natAbs &&& 127) = c.natAbs := by
    rw [hlow, hhigh]
    omega
  rw [composeCoeff_small _ _ _ hl (by omega)]
  have hcast : ((128 : Int)) * (↑(c.natAbs >>> 7) : Int) + (↑(c.natAbs &&& 127) : Int)
      = (↑c.natAbs : Int) := by exact_mod_cast hsum
  by_cases h : c < 0
  · rw [if_pos (by simpa using h)]
    omega
  · rw [if_neg (by simpa using h)]
    omega

/-- Inversion: the values of a round with the negative-zero test false determine
the parts of the reference encoding of the composed coefficient. -/
theorem composeCoeff_inv {sgn : Bool} {low high : Nat} (hl : low < 128)
    (hm : 128 * high + low < 32768)
    (hflag : ¬(low = 0 ∧ high = 0 ∧ sgn = true)) :
    decide (composeCoeff sgn low high < 0) = sgn ∧
      (composeCoeff sgn low high).natAbs = 128 * high + low := by
  rw [composeCoeff_small sgn low high hl hm]
  cases sgn
  · refine ⟨?_, ?_⟩ <;> simp <;> omega
  · have hpos : (0 : Int) < 128 * high + low := by
      have h0 : ¬(low = 0 ∧ high = 0) := by tauto
      omega
    refine ⟨?_, ?_⟩ <;> simp <;> omega

/-! ## The low-bits byte trick -/

theorem lowval_lt (w : Nat) : ((w &&& 255) >>> 1) < 128 := by
  have h := @Nat.and_le_right w 255
  rw [Nat.shiftRight_eq_div_pow]
  omega

theorem testBit_false_of_lt128 {a t : Nat} (ha : a < 128) (ht : 7 ≤ t) :
    a.testBit t = false := by
  refine Nat.testBit_eq_false_of_lt (lt_of_lt_of_le ha ?_)
  calc (128 : Nat) = 2 ^ 7 := by norm_num
  _ ≤ 2 ^ t := Nat.pow_le_pow_right (by norm_num) ht

theorem eq_of_low_bits {a b : Nat} (ha : a < 128) (hb : b < 128)
    (h : ∀ k < 7, a.testBit (6 - k) = b.testBit (6 - k)) : a = b := by
  refine Nat.eq_of_testBit_eq fun t => ?_
  by_cases ht : t < 7
  · have h1 := h (6 - t) (by omega)
    rwa [show 6 - (6 - t) = t from by omega] at h1
  · rw [testBit_false_of_lt128 ha (by omega), testBit_false_of_lt128 hb (by omega)]

/-- The two-byte low-bits read of `decompress` produces the number whose seven
bits, most significant first, are the stream bits `i1, …, i1 + 6`. -/
theorem lowread_bit {x : Bytes} (hw : wfB x) (i1 k : Nat) (hk : k < 7) :
    Nat.testBit
      ((((x.getD (i1 / 8) 0 <<< (i1 % 8)) |||
         (x.getD (i1 / 8 + 1) 0 >>> (8 - i1 % 8))) &&& 255) >>> 1) (6 - k)
      = bitAt x (i1 + k) := by
  have hb0 : x.getD (i1 / 8) 0 < 256 := hw _
  have hb1 : x.getD (i1 / 8 + 1) 0 < 256 := hw _
  have hm : i1 % 8 < 8 := Nat.mod_lt _ (by norm_num)
  have hi : 8 * (i1 / 8) + i1 % 8 = i1 := Nat.div_add_mod i1 8
  unfold bitAt
  simp only [Nat.testBit_shiftRight, Nat.testBit_land, Nat.testBit_lor,
    Nat.testBit_shiftLeft]
  have h255 : (255 : Nat).testBit (1 + (6 - k)) = true := by
    rw [show (255 : Nat) = 2 ^ 8 - 1 from by norm_num, Nat.testBit_two_pow_sub_one]
    simp only [decide_eq_true_eq]
    omega
  rw [h255, Bool.and_true]
  by_cases hcase : i1 % 8 ≤ 1 + (6 - k)
  · have hdiv : (i1 + k) / 8 = i1 / 8 := by omega
    have hmod : (i1 + k) % 8 = i1 % 8 + k := by omega
    rw [hdiv, hmod]
    have hb1f : (x.getD (i1 / 8 + 1) 0).testBit (8 - i1 % 8 + (1 + (6 - k))) = false :=
      testBit_false_of_lt256 hb1 (by omega)
    rw [hb1f, Bool.or_false]
    have hd : (decide (1 + (6 - k) ≥ i1 % 8)) = true := by
      simp only [decide_eq_true_eq]
      omega
    rw [hd, Bool.true_and]
    have hidx : 1 + (6 - k) - i1 % 8 = 7 - (i1 % 8 + k) := by omega
    rw [hidx]
  · have hdiv : (i1 + k) / 8 = i1 / 8 + 1 := by omega
    have hmod : (i1 + k) % 8 = i1 % 8 + k - 8 := by omega
    rw [hdiv, hmod]
    have hd : (decide (1 + (6 - k) ≥ i1 % 8)) = false := by
      simp only [decide_eq_false_iff_not]
      omega
    rw [hd, Bool.false_and, Bool.false_or]
    have hidx : 8 - i1 % 8 + (1 + (6 - k)) = 7 - (i1 % 8 + k - 8) := by omega
    rw [hidx]

/-! ## Scan lemmas -/

theorem scanHighF_sound {x : Bytes} : ∀ (d : Nat) {fuel idx high : Nat},
    bitLen x - idx < fuel →
    (∀ k < d, bitAt x (idx + k) = false) →
    bitAt x (idx + d) = true →
    high + d ≤ 94 →
    idx + d + 1 < bitLen x →
    scanHighF x fuel idx high = .ok (high + d, idx + d + 1) := by
  intro d
  induction d with
  | zero =>
      intro fuel idx high hfuel hz ht hcap hin
      cases fuel with
      | zero => exact absurd hfuel (by omega)
      | succ f =>
          rw [scanHighF, if_pos (show idx < bitLen x by omega)]
          rw [show idx + 0 = idx from rfl] at ht
          simp [ht]
  | succ d ih =>
      intro fuel idx high hfuel hz ht hcap hin
      cases fuel with
      | zero => exact absurd hfuel (by omega)
      | succ f =>
          rw [scanHighF, if_pos (show idx < bitLen x by omega)]
          have h0 : bitAt x idx = false := by
            have := hz 0 (by omega)
            simpa using this
          rw [h0]
          have hg : ¬(high + 1 = 95 ∨ idx + 2 = bitLen x) := by omega
          simp only [Bool.false_eq_true, if_false, if_neg hg]
          have hz2 : ∀ k < d, bitAt x (idx + 1 + k) = false := by
            intro k hk
            have := hz (k + 1) (by omega)
            rwa [show idx + (k + 1) = idx + 1 + k from by omega] at this
          have ht2 : bitAt x (idx + 1 + d) = true := by
            rwa [show idx + (d + 1) = idx + 1 + d from by omega] at ht
          have := @ih f (idx + 1) (high + 1)
            (by omega) hz2 ht2 (by omega) (by omega)
          rw [this]
          simp only [PRes.ok.injEq, Prod.mk.injEq]
          omega

theorem scanHigh_sound {x : Bytes} {idx d high : Nat}
    (hz : ∀ k < d, bitAt x (idx + k) = false)
    (ht : bitAt x (idx + d) = true)
    (hcap : high + d ≤ 94)
    (hin : idx + d + 1 < bitLen x) :
    scanHigh x idx high = .ok (high + d, idx + d + 1) :=
  scanHighF_sound d (by omega) hz ht hcap hin

theorem scanHLF_sound {x : Bytes} : ∀ (d : Nat) {fuel idx high : Nat},
    bitLen x - idx < fuel →
    (∀ k < d, bitAt x (idx + k) = false) →
    bitAt x (idx + d) = true →
    idx + d < bitLen x →
    scanHLF x fuel idx high = .ok (high + d, idx + d + 1) := by
  intro d
  induction d with
  | zero =>
      intro fuel idx high hfuel hz ht hin
      cases fuel with
      | zero => exact absurd hfuel (by omega)
      | succ f =>
          rw [scanHLF, if_pos (show idx < bitLen x by omega)]
          rw [show idx + 0 = idx from rfl] at ht
          simp [ht]
  | succ d ih =>
      intro fuel idx high hfuel hz ht hin
      cases fuel with
      | zero => exact absurd hfuel (by omega)
      | succ f =>
          rw [scanHLF, if_pos (show idx < bitLen x by omega)]
          have h0 : bitAt x idx = false := by
            have := hz 0 (by omega)
            simpa using this
          rw [h0]
          have hg : ¬(idx + 1 = bitLen x) := by omega
          simp only [Bool.false_eq_true, if_false, if_neg hg]
          have hz2 : ∀ k < d, bitAt x (idx + 1 + k) = false := by
            intro k hk
            have := hz (k + 1) (by omega)
            rwa [show idx + (k + 1) = idx + 1 + k from by omega] at this
          have ht2 : bitAt x (idx + 1 + d) = true := by
            rwa [show idx + (d + 1) = idx + 1 + d from by omega] at ht
          have := @ih f (idx + 1) (high + 1)
            (by omega) hz2 ht2 (by omega)
          rw [this]
          simp only [PRes.ok.injEq, Prod.mk.injEq]
          omega

theorem scanHL_sound {x : Bytes} {idx d high : Nat}
    (hz : ∀ k < d, bitAt x (idx + k) = false)
    (ht : bitAt x (idx + d) = true)
    (hin : idx + d < bitLen x) :
    scanHL x idx high = .ok (high + d, idx + d + 1) :=
  scanHLF_sound d (by omega) hz ht hin

theorem scanHighF_complete {x : Bytes} : ∀ {fuel idx h0 high i2 : Nat},
    scanHighF x fuel idx h0 = .ok (high, i2) →
    h0 ≤ high ∧ i2 = idx + (high - h0) + 1 ∧
      (∀ k < high - h0, bitAt x (idx + k) = false) ∧
      bitAt x (idx + (high - h0)) = true ∧
      idx + (high - h0) < bitLen x ∧
      (h0 ≤ 94 → high ≤ 94) := by
  intro fuel
  induction fuel with
  | zero => intro idx h0 high i2 h; exact absurd h (by simp [scanHighF])
  | succ f ih =>
      intro idx h0 high i2 h
      rw [scanHighF] at h
      by_cases hlt : idx < bitLen x
      · rw [if_pos hlt] at h
        by_cases hbit : bitAt x idx = true
        · rw [hbit] at h
          simp only [if_true] at h
          obtain ⟨h1, h2⟩ := by
            have := h
            simp only [PRes.ok.injEq, Prod.mk.injEq] at this
            exact this
          subst h1; subst h2
          refine ⟨le_refl _, by omega, ?_, ?_, by omega, fun hc => hc⟩
          · intro k hk; omega
          · simpa using hbit
        · rw [Bool.not_eq_true] at hbit
          rw [hbit] at h
          simp only [Bool.false_eq_true, if_false] at h
          by_cases hg : h0 + 1 = 95 ∨ idx + 2 = bitLen x
          · rw [if_pos hg] at h; exact absurd h (by simp)
          · rw [if_neg hg] at h
            obtain ⟨ha, hb, hc, hd, he, hf⟩ := ih h
            have hd1 : high - h0 = (high - (h0 + 1)) + 1 := by omega
            refine ⟨by omega, by omega, ?_, ?_, by omega, ?_⟩
            · intro k hk
              cases k with
              | zero => simpa using hbit
              | succ k2 =>
                  have := hc k2 (by omega)
                  rwa [show idx + 1 + k2 = idx + (k2 + 1) from by omega] at this
            · rw [show idx + (high - h0) = idx + 1 + (high - (h0 + 1)) from by omega]
              exact hd
            · intro h94
              refine hf ?_
              omega
      · rw [if_neg hlt] at h; exact absurd h (by simp)

theorem scanHigh_complete {x : Bytes} {idx high i2 : Nat}
    (h : scanHigh x idx 0 = .ok (high, i2)) :
    i2 = idx + high + 1 ∧
      (∀ k < high, bitAt x (idx + k) = false) ∧
      bitAt x (idx + high) = true ∧
      idx + high < bitLen x ∧ high ≤ 94 := by
  obtain ⟨-, h2, h3, h4, h5, h6⟩ := scanHighF_complete h
  simp only [Nat.sub_zero] at h2 h3 h4 h5
  exact ⟨h2, h3, h4, h5, h6 (by omega)⟩

theorem scanHLF_complete {x : Bytes} : ∀ {fuel idx h0 high i2 : Nat},
    scanHLF x fuel idx h0 = .ok (high, i2) →
    h0 ≤ high ∧ i2 = idx + (high - h0) + 1 ∧
      (∀ k < high - h0, bitAt x (idx + k) = false) ∧
      bitAt x (idx + (high - h0)) = true ∧
      idx + (high - h0) < bitLen x := by
  intro fuel
  induction fuel with
  | zero => intro idx h0 high i2 h; exact absurd h (by simp [scanHLF])
  | succ f ih =>
      intro idx h0 high i2 h
      rw [scanHLF] at h
      by_cases hlt : idx < bitLen x
      · rw [if_pos hlt] at h
        by_cases hbit : bitAt x idx = true
        · rw [hbit] at h
          simp only [if_true] at h
          obtain ⟨h1, h2⟩ := by
            have := h
            simp only [PRes.ok.injEq, Prod.mk.injEq] at this
            exact this
          subst h1; subst h2
          refine ⟨le_refl _, by omega, ?_, ?_, by omega⟩
          · intro k hk; omega
          · simpa using hbit
        · rw [Bool.not_eq_true] at hbit
          rw [hbit] at h
          simp only [Bool.false_eq_true, if_false] at h
          by_cases hg : idx + 1 = bitLen x
          · rw [if_pos hg] at h; exact absurd h (by simp)
          · rw [if_neg hg] at h
            obtain ⟨ha, hb, hc, hd, he⟩ := ih h
            refine ⟨by omega, by omega, ?_, ?_, by omega⟩
            · intro k hk
              cases k with
              | zero => simpa using hbit
              | succ k2 =>
                  have := hc k2 (by omega)
                  rwa [show idx + 1 + k2 = idx + (k2 + 1) from by omega] at this
            · rw [show idx + (high - h0) = idx + 1 + (high - (h0 + 1)) from by omega]
              exact hd
      · rw [if_neg hlt] at h; exact absurd h (by simp)

theorem scanHL_complete {x : Bytes} {idx high i2 : Nat}
    (h : scanHL x idx 0 = .ok (high, i2)) :
    i2 = idx + high + 1 ∧
      (∀ k < high, bitAt x (idx + k) = false) ∧
      bitAt x (idx + high) = true ∧
      idx + high < bitLen x := by
  obtain ⟨-, h2, h3, h4, h5⟩ := scanHLF_complete h
  simp only [Nat.sub_zero] at h2 h3 h4 h5
  exact ⟨h2, h3, h4, h5⟩

/-! ## Monad computation lemmas and `encOne` positions -/

@[simp]
theorem okBind {α β : Type} (a : α) (f : α → PRes β) :
    (PRes.ok a : PRes α) >>= f = f a := rfl

@[simp]
theorem failBind {α β : Type} (f : α → PRes β) :
    (PRes.fail : PRes α) >>= f = .fail := rfl

@[simp]
theorem crashBind {α β : Type} (f : α → PRes β) :
    (PRes.crash : PRes α) >>= f = .crash := rfl

@[simp]
theorem pureOk {α : Type} (a : α) : (pure a : PRes α) = .ok a := rfl

theorem encOne_getD_zero (c : Int) : (encOne c).getD 0 false = decide (c < 0) := rfl

theorem encOne_getD_low (c : Int) (k : Nat) (hk : k < 7) :
    (encOne c).getD (1 + k) false = Nat.testBit (c.natAbs &&& 127) (6 - k) := by
  unfold encOne
  rw [show (1 + k) = k + 1 from by omega]
  simp only [List.getD_eq_getElem?_getD, List.getElem?_cons_succ]
  rw [List.getElem?_append, if_pos (by simpa using hk)]
  simp [List.getElem?_map, List.getElem?_range hk]

theorem encOne_getD_high (c : Int) (k : Nat) (hk : k < c.natAbs >>> 7) :
    (encOne c).getD (8 + k) false = false := by
  unfold encOne
  rw [show (8 + k) = (7 + k) + 1 from by omega]
  simp only [List.getD_eq_getElem?_getD, List.getElem?_cons_succ]
  rw [List.getElem?_append_right (by simp)]
  simp only [List.length_map, List.length_range]
  rw [List.getElem?_append, if_pos (by simp; omega)]
  simp [List.getElem?_replicate, show 7 + k - 7 = k from by omega, hk]

theorem encOne_getD_term (c : Int) :
    (encOne c).getD (8 + c.natAbs >>> 7) false = true := by
  unfold encOne
  rw [show (8 + c.natAbs >>> 7) = (7 + c.natAbs >>> 7) + 1 from by omega]
  simp only [List.getD_eq_getElem?_getD, List.getElem?_cons_succ]
  rw [List.getElem?_append_right (by simp)]
  simp only [List.length_map, List.length_range]
  rw [List.getElem?_append_right (by simp [show 7 + c.natAbs >>> 7 - 7 = c.natAbs >>> 7 from by omega])]
  simp [show 7 + c.natAbs >>> 7 - 7 = c.natAbs >>> 7 from by omega]

theorem encOne_getD_ge (c : Int) (j : Nat) (hj : 9 + c.natAbs >>> 7 ≤ j) :
    (encOne c).getD j false = false := by
  have hlen : (encOne c).length = 9 + c.natAbs >>> 7 := by
    rw [length_encOne]
    simp [compress_coefficient]
    omega
  rw [List.getD_eq_getElem?_getD, List.getElem?_eq_none (by omega)]
  rfl

/-! ## Round lemmas -/

theorem and127_lt (a : Nat) : a &&& 127 < 128 :=
  Nat.lt_of_le_of_lt Nat.and_le_right (by norm_num)

theorem roundNL_sound {x : Bytes} (hw : wfB x) {idx : Nat} {c : Int}
    (hbits : ∀ j < 9 + c.natAbs >>> 7, bitAt x (idx + j) = (encOne c).getD j false)
    (hcap : c.natAbs >>> 7 ≤ 94)
    (hroom : idx + (9 + c.natAbs >>> 7) + 9 ≤ bitLen x) :
    roundNL x idx =
      .ok (decide (c < 0), c.natAbs &&& 127, c.natAbs >>> 7, idx + 9 + c.natAbs >>> 7) := by
  have hd8 : (idx + 1) / 8 < x.length := by
    unfold bitLen at hroom
    omega
  have hd81 : (idx + 1) / 8 + 1 < x.length := by
    unfold bitLen at hroom
    omega
  simp only [roundNL]
  rw [if_neg (show ¬(idx + 8 ≥ bitLen x) by omega)]
  simp only [rdByte]
  rw [if_pos hd8]
  simp only [okBind]
  rw [if_pos hd81]
  simp only [okBind]
  have hsgn : bitAt x idx = decide (c < 0) := by
    have := hbits 0 (by omega)
    rwa [Nat.add_zero, encOne_getD_zero] at this
  have hlow : (((x.getD ((idx + 1) / 8) 0 <<< ((idx + 1) % 8)) |||
      (x.getD ((idx + 1) / 8 + 1) 0 >>> (8 - (idx + 1) % 8))) &&& 255) >>> 1
      = c.natAbs &&& 127 := by
    refine eq_of_low_bits (lowval_lt _) (and127_lt _) ?_
    intro k hk
    rw [lowread_bit hw (idx + 1) k hk]
    have h1 := hbits (1 + k) (by omega)
    rw [encOne_getD_low c k hk] at h1
    rw [show idx + 1 + k = idx + (1 + k) from by omega]
    exact h1
  have hscan : scanHigh x (idx + 1 + 7) 0 = .ok (c.natAbs >>> 7, idx + 9 + c.natAbs >>> 7) := by
    have hz : ∀ k < c.natAbs >>> 7, bitAt x (idx + 1 + 7 + k) = false := by
      intro k hk
      have := hbits (8 + k) (by omega)
      rw [encOne_getD_high c k hk] at this
      rwa [show idx + 1 + 7 + k = idx + (8 + k) from by omega]
    have ht : bitAt x (idx + 1 + 7 + (c.natAbs >>> 7)) = true := by
      have := hbits (8 + c.natAbs >>> 7) (by omega)
      rw [encOne_getD_term c] at this
      rwa [show idx + 1 + 7 + c.natAbs >>> 7 = idx + (8 + c.natAbs >>> 7) from by omega]
    have := @scanHigh_sound x (idx + 1 + 7) (c.natAbs >>> 7) 0
      hz ht (by omega) (by omega)
    rw [this]
    simp only [PRes.ok.injEq, Prod.mk.injEq]
    omega
  rw [hlow, hscan]
  simp only [okBind, pureOk, hsgn]

theorem roundNL_complete {x : Bytes} (hw : wfB x) {idx : Nat} {sgn : Bool}
    {low high i2 : Nat}
    (h : roundNL x idx = .ok (sgn, low, high, i2)) :
    idx + 8 < bitLen x ∧ sgn = bitAt x idx ∧ low < 128 ∧
      (∀ k < 7, Nat.testBit low (6 - k) = bitAt x (idx + 1 + k)) ∧
      i2 = idx + 9 + high ∧
      (∀ k < high, bitAt x (idx + 8 + k) = false) ∧
      bitAt x (idx + 8 + high) = true ∧
      idx + 8 + high < bitLen x ∧ high ≤ 94 := by
  simp only [roundNL] at h
  by_cases hg : idx + 8 ≥ bitLen x
  · rw [if_pos hg] at h
    exact absurd h (by simp)
  · rw [if_neg hg] at h
    simp only [rdByte] at h
    by_cases hd8 : (idx + 1) / 8 < x.length
    · rw [if_pos hd8] at h
      simp only [okBind] at h
      by_cases hd81 : (idx + 1) / 8 + 1 < x.length
      · rw [if_pos hd81] at h
        simp only [okBind] at h
        cases hscan : scanHigh x (idx + 1 + 7) 0 with
        | ok p =>
            obtain ⟨high2, j2⟩ := p
            rw [hscan] at h
            simp only [okBind, pureOk, PRes.ok.injEq, Prod.mk.injEq] at h
            obtain ⟨h1, h2, h3, h4⟩ := h
            obtain ⟨hs1, hs2, hs3, hs4, hs5⟩ := scanHigh_complete hscan
            subst h1
            subst h3
            subst h4
            refine ⟨by omega, rfl, ?_, ?_, by omega, ?_, ?_, by omega, by omega⟩
            · rw [← h2]
              exact lowval_lt _
            · intro k hk
              rw [← h2, lowread_bit hw (idx + 1) k hk]
            · intro k hk
              have := hs2 k (by omega)
              rwa [show idx + 1 + 7 + k = idx + 8 + k from by omega] at this
            · have := hs3
              rwa [show idx + 1 + 7 + high2 = idx + 8 + high2 from by omega] at this
        | fail =>
            rw [hscan] at h
            exact absurd h (by simp)
        | crash =>
            rw [hscan] at h
            exact absurd h (by simp)
      · rw [if_neg hd81] at h
        exact absurd h (by simp)
    · rw [if_neg hd8] at h
      exact absurd h (by simp)

/-- When the low-bit read starts on a byte boundary, the single-byte read of the
last round coincides with the two-byte expression (the second byte is shifted
out entirely). -/
theorem lowread_aligned {x : Bytes} (hw : wfB x) (i1 : Nat) (hm : i1 % 8 = 0) :
    x.getD (i1 / 8) 0 <<< (i1 % 8) =
      (x.getD (i1 / 8) 0 <<< (i1 % 8)) |||
        (x.getD (i1 / 8 + 1) 0 >>> (8 - i1 % 8)) := by
  have hb1 : x.getD (i1 / 8 + 1) 0 < 256 := hw _
  have hz : x.getD (i1 / 8 + 1) 0 >>> (8 - i1 % 8) = 0 := by
    rw [hm, Nat.sub_zero, Nat.shiftRight_eq_div_pow]
    exact Nat.div_eq_of_lt (by norm_num at hb1 ⊢; omega)
  rw [hz]
  simp

theorem roundL_sound {x : Bytes} (hw : wfB x) {idx : Nat} {c : Int}
    (hbits : ∀ j < 9 + c.natAbs >>> 7, bitAt x (idx + j) = (encOne c).getD j false)
    (hroom : idx + (9 + c.natAbs >>> 7) ≤ bitLen x)
    (hcabs : c.natAbs < 32768) :
    roundL x idx =
      .ok (decide (c < 0), c.natAbs &&& 127, c.natAbs >>> 7, c,
        idx + 9 + c.natAbs >>> 7) := by
  have hlen : bitLen x = 8 * x.length := rfl
  have hd8 : (idx + 1) / 8 < x.length := by omega
  simp only [roundL]
  rw [if_neg (show ¬(idx + 8 ≥ bitLen x) by omega),
    if_neg (show ¬(bitLen x = idx) by omega)]
  simp only [rdByte]
  rw [if_pos hd8]
  simp only [okBind]
  have hlow2 : (((x.getD ((idx + 1) / 8) 0 <<< ((idx + 1) % 8)) |||
      (x.getD ((idx + 1) / 8 + 1) 0 >>> (8 - (idx + 1) % 8))) &&& 255) >>> 1
      = c.natAbs &&& 127 := by
    refine eq_of_low_bits (lowval_lt _) (and127_lt _) ?_
    intro k hk
    rw [lowread_bit hw (idx + 1) k hk]
    have h1 := hbits (1 + k) (by omega)
    rw [encOne_getD_low c k hk] at h1
    rw [show idx + 1 + k = idx + (1 + k) from by omega]
    exact h1
  have hbody : ∀ low1,
      low1 = ((x.getD ((idx + 1) / 8) 0 <<< ((idx + 1) % 8)) |||
        (x.getD ((idx + 1) / 8 + 1) 0 >>> (8 - (idx + 1) % 8))) →
      (if bitLen x = idx + 1 + 7 then (.fail : PRes (Bool × Nat × Nat × Int × Nat))
       else do
        let (high, i3) ← scanHL x (idx + 1 + 7) 0
        pure (bitAt x idx, (low1 &&& 255) >>> 1, high,
          composeCoeff (bitAt x idx) ((low1 &&& 255) >>> 1) high, i3))
      = .ok (decide (c < 0), c.natAbs &&& 127, c.natAbs >>> 7, c,
          idx + 9 + c.natAbs >>> 7) := by
    intro low1 hlow1
    rw [if_neg (show ¬(bitLen x = idx + 1 + 7) by omega)]
    have hsgn : bitAt x idx = decide (c < 0) := by
      have := hbits 0 (by omega)
      rwa [Nat.add_zero, encOne_getD_zero] at this
    have hscan : scanHL x (idx + 1 + 7) 0
        = .ok (c.natAbs >>> 7, idx + 9 + c.natAbs >>> 7) := by
      have hz : ∀ k < c.natAbs >>> 7, bitAt x (idx + 1 + 7 + k) = false := by
        intro k hk
        have := hbits (8 + k) (by omega)
        rw [encOne_getD_high c k hk] at this
        rwa [show idx + 1 + 7 + k = idx + (8 + k) from by omega]
      have ht : bitAt x (idx + 1 + 7 + (c.natAbs >>> 7)) = true := by
        have := hbits (8 + c.natAbs >>> 7) (by omega)
        rw [encOne_getD_term c] at this
        rwa [show idx + 1 + 7 + c.natAbs >>> 7 = idx + (8 + c.natAbs >>> 7) from by omega]
      have := @scanHL_sound x (idx + 1 + 7) (c.natAbs >>> 7)
        0 hz ht (by omega)
      rw [this]
      simp only [PRes.ok.injEq, Prod.mk.injEq]
      omega
    rw [hscan]
    simp only [okBind, pureOk]
    rw [hlow1, hlow2, hsgn, composeCoeff_encOne hcabs]
  by_cases hm8 : (idx + 1) % 8 ≠ 0
  · have hd81 : (idx + 1) / 8 + 1 < x.length := by omega
    rw [if_pos ⟨hm8, hd81⟩, if_pos hd81]
    simp only [okBind]
    exact hbody _ rfl
  · rw [if_neg (by tauto), if_neg hm8]
    push_neg at hm8
    exact hbody _ (lowread_aligned hw (idx + 1) hm8)

theorem roundL_complete {x : Bytes} (hw : wfB x) {idx : Nat} {sgn : Bool}
    {low high : Nat} {c : Int} {i3 : Nat}
    (h : roundL x idx = .ok (sgn, low, high, c, i3)) :
    idx + 8 < bitLen x ∧ sgn = bitAt x idx ∧ low < 128 ∧
      (∀ k < 7, Nat.testBit low (6 - k) = bitAt x (idx + 1 + k)) ∧
      c = composeCoeff sgn low high ∧
      i3 = idx + 9 + high ∧
      (∀ k < high, bitAt x (idx + 8 + k) = false) ∧
      bitAt x (idx + 8 + high) = true ∧
      idx + 8 + high < bitLen x := by
  simp only [roundL] at h
  by_cases hg : idx + 8 ≥ bitLen x
  · rw [if_pos hg] at h
    exact absurd h (by simp)
  · rw [if_neg hg] at h
    by_cases hg2 : bitLen x = idx
    · rw [if_pos hg2] at h
      exact absurd h (by simp)
    · rw [if_neg hg2] at h
      simp only [rdByte] at h
      by_cases hd8 : (idx + 1) / 8 < x.length
      · rw [if_pos hd8] at h
        simp only [okBind] at h
        have hmain : ∀ L,
            L = ((x.getD ((idx + 1) / 8) 0 <<< ((idx + 1) % 8)) |||
              (x.getD ((idx + 1) / 8 + 1) 0 >>> (8 - (idx + 1) % 8))) →
            ((if bitLen x = idx + 1 + 7 then (.fail : PRes (Bool × Nat × Nat × Int × Nat))
              else do
                let (high2, j3) ← scanHL x (idx + 1 + 7) 0
                pure (bitAt x idx, (L &&& 255) >>> 1, high2,
                  composeCoeff (bitAt x idx) ((L &&& 255) >>> 1) high2, j3))
              = .ok (sgn, low, high, c, i3)) →
            idx + 8 < bitLen x ∧ sgn = bitAt x idx ∧ low < 128 ∧
              (∀ k < 7, Nat.testBit low (6 - k) = bitAt x (idx + 1 + k)) ∧
              c = composeCoeff sgn low high ∧
              i3 = idx + 9 + high ∧
              (∀ k < high, bitAt x (idx + 8 + k) = false) ∧
              bitAt x (idx + 8 + high) = true ∧
              idx + 8 + high < bitLen x := by
          intro L hLdef hbody
          by_cases hg3 : bitLen x = idx + 1 + 7
          · rw [if_pos hg3] at hbody
            exact absurd hbody (by simp)
          · rw [if_neg hg3] at hbody
            cases hscan : scanHL x (idx + 1 + 7) 0 with
            | ok p =>
                obtain ⟨high2, j3⟩ := p
                rw [hscan] at hbody
                simp only [okBind, pureOk, PRes.ok.injEq, Prod.mk.injEq] at hbody
                obtain ⟨h1, h2, h3, h4, h5⟩ := hbody
                obtain ⟨hs1, hs2, hs3, hs4⟩ := scanHL_complete hscan
                subst h1
                subst h2
                subst h3
                subst h5
                refine ⟨by omega, rfl, ?_, ?_, h4.symm, by omega, ?_, ?_, by omega⟩
                · exact lowval_lt _
                · intro k hk
                  rw [hLdef, lowread_bit hw (idx + 1) k hk]
                · intro k hk
                  have := hs2 k (by omega)
                  rwa [show idx + 1 + 7 + k = idx + 8 + k from by omega] at this
                · have := hs3
                  rwa [show idx + 1 + 7 + high2 = idx + 8 + high2 from by omega] at this
            | fail =>
                rw [hscan] at hbody
                exact absurd hbody (by simp)
            | crash =>
                rw [hscan] at hbody
                exact absurd hbody (by simp)
        by_cases hc1 : (idx + 1) % 8 ≠ 0 ∧ (idx + 1) / 8 + 1 < x.length
        · rw [if_pos hc1, if_pos hc1.2] at h
          simp only [okBind] at h
          exact hmain _ rfl h
        · rw [if_neg hc1] at h
          by_cases hm8 : (idx + 1) % 8 ≠ 0
          · rw [if_pos hm8] at h
            exact absurd h (by simp)
          · rw [if_neg hm8] at h
            push_neg at hm8
            simp only [okBind, pureOk] at h
            exact hmain _ (lowread_aligned hw (idx + 1) hm8) h
      · rw [if_neg hd8] at h
        exact absurd h (by simp)

/-! ## Loop lemmas -/

theorem and127_eq_mod (a : Nat) : a &&& 127 = a % 128 := by
  have h := Nat.and_pow_two_sub_one_eq_mod a 7
  norm_num at h
  exact h

theorem shiftRight7_eq_div (a : Nat) : a >>> 7 = a / 128 := by
  rw [Nat.shiftRight_eq_div_pow]

theorem shiftRight7_le {a : Nat} (h : a ≤ 12159) : a >>> 7 ≤ 94 := by
  rw [shiftRight7_eq_div]
  omega

/-- The negative-zero flag of a round that reads back a reference encoding is
never set: negative coefficients have a nonzero magnitude. -/
theorem encOne_flag (c : Int) :
    (c.natAbs &&& 127 == 0 && c.natAbs >>> 7 == 0 && decide (c < 0)) = false := by
  by_cases h : c < 0
  · have hvals : ¬(c.natAbs &&& 127 = 0 ∧ c.natAbs >>> 7 = 0) := by
      rw [and127_eq_mod, shiftRight7_eq_div]
      omega
    by_cases h1 : c.natAbs &&& 127 = 0
    · have h2 : c.natAbs >>> 7 ≠ 0 := fun h2 => hvals ⟨h1, h2⟩
      simp [h2]
    · simp [h1]
  · simp [h]

/-- The abort flag of the decoder loop is monotone: once set it stays set. -/
theorem dloop_ab_mono {x : Bytes} : ∀ {k idx : Nat} {cs : List Int} {i9 : Nat} {ab3 : Bool},
    dloop x k idx true = .ok (cs, i9, ab3) → ab3 = true := by
  intro k
  induction k with
  | zero =>
      intro idx cs i9 ab3 h
      simp only [dloop, pureOk, PRes.ok.injEq, Prod.mk.injEq] at h
      exact h.2.2.symm
  | succ k ih =>
      intro idx cs i9 ab3 h
      simp only [dloop] at h
      cases hr : roundNL x idx with
      | ok q =>
          obtain ⟨sgn, low, high, i2⟩ := q
          rw [hr] at h
          simp only [okBind, Bool.true_or] at h
          cases hrec : dloop x k i2 true with
          | ok p =>
              obtain ⟨cs2, i3, ab4⟩ := p
              rw [hrec] at h
              simp only [okBind, pureOk, PRes.ok.injEq, Prod.mk.injEq] at h
              rw [← h.2.2]
              exact ih hrec
          | fail => rw [hrec] at h; exact absurd h (by simp)
          | crash => rw [hrec] at h; exact absurd h (by simp)
      | fail => rw [hr] at h; exact absurd h (by simp)
      | crash => rw [hr] at h; exact absurd h (by simp)

theorem dloop_sound {x : Bytes} (hw : wfB x) : ∀ (cs : List Int) {idx : Nat} (ab : Bool),
    (∀ j < totalLength cs, bitAt x (idx + j) = (enc cs).getD j false) →
    idx + totalLength cs + 9 ≤ bitLen x →
    (∀ c ∈ cs, c.natAbs ≤ 12159) →
    dloop x cs.length idx ab = .ok (cs, idx + totalLength cs, ab) := by
  intro cs
  induction cs with
  | nil =>
      intro idx ab hbits hroom hsm
      simp [dloop, totalLength]
  | cons c cs ih =>
      intro idx ab hbits hroom hsm
      have hsmc : c.natAbs ≤ 12159 := hsm c (List.mem_cons_self c cs)
      have hlen1 : (encOne c).length = 9 + c.natAbs >>> 7 := by
        rw [length_encOne]
        simp [compress_coefficient]
        omega
      have htotc : totalLength (c :: cs) = (9 + c.natAbs >>> 7) + totalLength cs :=
        totalLength_cons c cs
      have hbits1 : ∀ j < 9 + c.natAbs >>> 7,
          bitAt x (idx + j) = (encOne c).getD j false := by
        intro j hj
        have h1 := hbits j (by omega)
        rwa [enc_cons, List.getD_eq_getElem?_getD, List.getElem?_append,
          if_pos (by omega), ← List.getD_eq_getElem?_getD] at h1
      have hround := @roundNL_sound x hw idx c hbits1
        (shiftRight7_le hsmc) (by omega)
      simp only [List.length_cons, dloop]
      rw [hround]
      simp only [okBind]
      rw [encOne_flag c]
      have hrec := @ih (idx + 9 + c.natAbs >>> 7) ab
        (by
          intro j hj
          have h1 := hbits ((9 + c.natAbs >>> 7) + j) (by omega)
          rw [enc_cons, List.getD_eq_getElem?_getD, List.getElem?_append,
            if_neg (by omega), ← List.getD_eq_getElem?_getD] at h1
          rw [show idx + 9 + c.natAbs >>> 7 + j = idx + (9 + c.natAbs >>> 7 + j) from by omega]
          rw [h1]
          congr 1
          omega)
        (by omega)
        (fun c2 hc2 => hsm c2 (List.mem_cons_of_mem c hc2))
      rw [Bool.or_false, hrec,
        @composeCoeff_encOne c (show c.natAbs < 32768 by omega)]
      simp only [okBind, pureOk, PRes.ok.injEq, Prod.mk.injEq, List.cons.injEq,
        true_and, and_true]
      try omega

/-- The stream bits read by a successful round whose negative-zero flag is false
are exactly the reference encoding of the composed coefficient. -/
theorem round_bits_encOne {x : Bytes} {idx : Nat} {sgn : Bool} {low high : Nat}
    (hlow : low < 128)
    (hsgn : sgn = bitAt x idx)
    (hlowbits : ∀ k < 7, Nat.testBit low (6 - k) = bitAt x (idx + 1 + k))
    (hz : ∀ k < high, bitAt x (idx + 8 + k) = false)
    (ht : bitAt x (idx + 8 + high) = true)
    (hm : 128 * high + low < 32768)
    (hflag : (low == 0 && high == 0 && sgn) = false) :
    (composeCoeff sgn low high).natAbs = 128 * high + low ∧
      (∀ j < 9 + high,
        bitAt x (idx + j) = (encOne (composeCoeff sgn low high)).getD j false) := by
  have hflagP : ¬(low = 0 ∧ high = 0 ∧ sgn = true) := by
    intro ⟨h1, h2, h3⟩
    rw [h1, h2, h3] at hflag
    simp at hflag
  obtain ⟨hd, habs⟩ := composeCoeff_inv hlow hm hflagP
  have hlow2 : (composeCoeff sgn low high).natAbs &&& 127 = low := by
    rw [habs, and127_eq_mod]
    omega
  have hhigh2 : (composeCoeff sgn low high).natAbs >>> 7 = high := by
    rw [habs, shiftRight7_eq_div]
    omega
  refine ⟨habs, ?_⟩
  intro j hj
  rcases j with _ | j
  · rw [Nat.add_zero, encOne_getD_zero, hd, hsgn]
  · by_cases hj7 : j < 7
    · rw [show j + 1 = 1 + j from by omega, encOne_getD_low _ j hj7, hlow2,
        hlowbits j hj7]
      rw [show idx + (1 + j) = idx + 1 + j from by omega]
    · by_cases hjh : j + 1 < 8 + high
      · have hk : j + 1 - 8 < high := by omega
        have := encOne_getD_high (composeCoeff sgn low high) (j + 1 - 8)
          (by rw [hhigh2]; exact hk)
        rw [show (8 + (j + 1 - 8)) = j + 1 from by omega] at this
        rw [this]
        have := hz (j + 1 - 8) hk
        rwa [show idx + 8 + (j + 1 - 8) = idx + (j + 1) from by omega] at this
      · have hje : j + 1 = 8 + high := by omega
        have h1 := encOne_getD_term (composeCoeff sgn low high)
        rw [hhigh2] at h1
        rw [hje, h1]
        rwa [show idx + (8 + high) = idx + 8 + high from by omega]

theorem dloop_complete {x : Bytes} (hw : wfB x) :
    ∀ (k : Nat) {idx : Nat} {cs : List Int} {i9 : Nat},
    dloop x k idx false = .ok (cs, i9, false) →
    cs.length = k ∧ i9 = idx + totalLength cs ∧
      (∀ j < totalLength cs, bitAt x (idx + j) = (enc cs).getD j false) ∧
      (∀ c ∈ cs, c.natAbs ≤ 12159) := by
  intro k
  induction k with
  | zero =>
      intro idx cs i9 h
      simp only [dloop, pureOk, PRes.ok.injEq, Prod.mk.injEq] at h
      obtain ⟨h1, h2, -⟩ := h
      subst h1
      subst h2
      refine ⟨rfl, by simp [totalLength], ?_, by simp⟩
      intro j hj
      simp [totalLength] at hj
  | succ k ih =>
      intro idx cs i9 h
      simp only [dloop] at h
      cases hr : roundNL x idx with
      | ok q =>
          obtain ⟨sgn, low, high, i2⟩ := q
          rw [hr] at h
          simp only [okBind, Bool.false_or] at h
          cases hrec : dloop x k i2 (low == 0 && high == 0 && sgn) with
          | ok p =>
              obtain ⟨cs2, i3, ab3⟩ := p
              rw [hrec] at h
              simp only [okBind, pureOk, PRes.ok.injEq, Prod.mk.injEq] at h
              obtain ⟨h1, h2, h3⟩ := h
              have hflag : (low == 0 && high == 0 && sgn) = false := by
                by_cases hf : (low == 0 && high == 0 && sgn) = true
                · rw [hf] at hrec
                  have := dloop_ab_mono hrec
                  rw [this] at h3
                  exact absurd h3 (by simp)
                · exact Bool.not_eq_true _ |>.mp hf
              rw [hflag] at hrec
              obtain ⟨hg, hsgn, hlow, hlowbits, hi2, hz, ht, hth, h94⟩ :=
                roundNL_complete hw hr
              have hm : 128 * high + low < 32768 := by omega
              obtain ⟨habs, hbitsOne⟩ :=
                round_bits_encOne hlow hsgn hlowbits hz ht hm hflag
              have hhigh2 : (composeCoeff sgn low high).natAbs >>> 7 = high := by
                rw [habs, shiftRight7_eq_div]
                omega
              have hlen1 : (encOne (composeCoeff sgn low high)).length = 9 + high := by
                rw [length_encOne]
                simp [compress_coefficient]
                rw [hhigh2]
                omega
              have htotc : totalLength (composeCoeff sgn low high :: cs2)
                  = (9 + high) + totalLength cs2 := by
                rw [totalLength_cons, hhigh2]
              obtain ⟨ihl, ihi, ihbits, ihsm⟩ := ih (by rw [h3] at hrec; exact hrec)
              subst h1
              refine ⟨by simp [ihl], ?_, ?_, ?_⟩
              · rw [htotc]
                omega
              · intro j hj
                rw [htotc] at hj
                rw [enc_cons, List.getD_eq_getElem?_getD, List.getElem?_append]
                by_cases hj1 : j < 9 + high
                · rw [if_pos (by rw [hlen1]; exact hj1), ← List.getD_eq_getElem?_getD]
                  exact hbitsOne j hj1
                · rw [if_neg (by rw [hlen1]; exact hj1), ← List.getD_eq_getElem?_getD,
                    hlen1]
                  have := ihbits (j - (9 + high)) (by omega)
                  rw [hi2] at this
                  rwa [show idx + 9 + high + (j - (9 + high)) = idx + j from by omega]
                    at this
              · intro c2 hc2
                rcases List.mem_cons.mp hc2 with hc2 | hc2
                · rw [hc2, habs]
                  omega
                · exact ihsm c2 hc2
          | fail => rw [hrec] at h; exact absurd h (by simp)
          | crash => rw [hrec] at h; exact absurd h (by simp)
      | fail => rw [hr] at h; exact absurd h (by simp)
      | crash => rw [hr] at h; exact absurd h (by simp)

/-! ## Padding-check lemmas -/

/-- A byte all of whose stream bits are clear is zero. -/
theorem byte_zero_of_bits {x : Bytes} (hw : wfB x) {p : Nat}
    (h : ∀ t < 8, bitAt x (8 * p + t) = false) : x.getD p 0 = 0 := by
  refine Nat.eq_of_testBit_eq fun t => ?_
  rw [Nat.zero_testBit]
  by_cases ht : t < 8
  · have := h (7 - t) (by omega)
    unfold bitAt at this
    rw [show (8 * p + (7 - t)) / 8 = p from by omega,
      show 7 - (8 * p + (7 - t)) % 8 = t from by omega] at this
    exact this
  · exact testBit_false_of_lt256 (hw p) (by omega)

theorem padding_sound {x : Bytes} (hw : wfB x) {idx : Nat}
    (hclean : ∀ j, idx ≤ j → j < bitLen x → bitAt x j = false) :
    paddingBad x idx = false := by
  unfold paddingBad
  rw [Bool.or_eq_false_iff]
  constructor
  · rw [List.any_eq_false]
    intro k hk
    simp only [Bool.and_eq_true, decide_eq_true_eq, not_and]
    intro hlt
    rw [hclean (idx + k) (by omega) hlt]
    simp
  · rw [List.any_eq_false]
    intro b hb
    rw [List.mem_iff_getElem?] at hb
    obtain ⟨q, hq⟩ := hb
    rw [List.getElem?_drop] at hq
    have hqlen : idx / 8 + 1 - (if idx % 8 = 0 then 1 else 0) + q < x.length := by
      rcases List.getElem?_eq_some_iff.mp hq with ⟨hlt, -⟩
      exact hlt
    have hbval : b = x.getD (idx / 8 + 1 - (if idx % 8 = 0 then 1 else 0) + q) 0 := by
      rw [List.getD_eq_getElem?_getD, hq]
      rfl
    have hstart : idx ≤ 8 * (idx / 8 + 1 - (if idx % 8 = 0 then 1 else 0) + q) := by
      by_cases hm : idx % 8 = 0 <;> simp [hm] <;> omega
    have hzero : b = 0 := by
      rw [hbval]
      refine byte_zero_of_bits hw fun t ht => ?_
      refine hclean _ (by omega) ?_
      unfold bitLen
      omega
    rw [hzero]
    simp

theorem padding_complete {x : Bytes} (_hw : wfB x) {idx : Nat}
    (h : paddingBad x idx = false) :
    ∀ j, idx ≤ j → j < bitLen x → bitAt x j = false := by
  unfold paddingBad at h
  rw [Bool.or_eq_false_iff] at h
  obtain ⟨h1, h2⟩ := h
  rw [List.any_eq_false] at h1 h2
  intro j hj hjlen
  by_cases hcase : j < idx + (8 - idx % 8)
  · have hmem : j - idx ∈ List.range (8 - idx % 8) := by
      rw [List.mem_range]
      omega
    have := h1 _ hmem
    simp only [Bool.and_eq_true, decide_eq_true_eq, not_and] at this
    have h3 := this (by rw [show idx + (j - idx) = j from by omega]; exact hjlen)
    rw [show idx + (j - idx) = j from by omega] at h3
    exact Bool.not_eq_true _ |>.mp h3
  · have hp : idx / 8 + 1 ≤ j / 8 := by omega
    have hjl : j / 8 < x.length := by
      unfold bitLen at hjlen
      omega
    have hmem : x.getD (j / 8) 0 ∈
        x.drop (idx / 8 + 1 - (if idx % 8 = 0 then 1 else 0)) := by
      rw [List.mem_iff_getElem?]
      refine ⟨j / 8 - (idx / 8 + 1 - (if idx % 8 = 0 then 1 else 0)), ?_⟩
      rw [List.getElem?_drop,
        show idx / 8 + 1 - (if idx % 8 = 0 then 1 else 0) +
          (j / 8 - (idx / 8 + 1 - (if idx % 8 = 0 then 1 else 0))) = j / 8 from by
            by_cases hm : idx % 8 = 0 <;> simp [hm] <;> omega]
      rw [List.getElem?_eq_getElem hjl, List.getD_eq_getElem?_getD,
        List.getElem?_eq_getElem hjl]
      rfl
    have hbz := h2 _ hmem
    simp only [bne_iff_ne, ne_eq, not_not] at hbz
    unfold bitAt
    rw [hbz, Nat.zero_testBit]

/-! ## Decompress: soundness on encoded streams -/

theorem enc_append (a b : List Int) : enc (a ++ b) = enc a ++ enc b := by
  simp [enc]

theorem totalLength_append (a b : List Int) :
    totalLength (a ++ b) = totalLength a + totalLength b := by
  simp [totalLength]

theorem totalLength_single (c : Int) : totalLength [c] = 9 + c.natAbs >>> 7 := by
  simp [totalLength, compress_coefficient]
  omega

theorem decompress_sound {x : Bytes} (hw : wfB x) {v : List Int} (hne : v ≠ [])
    (hbits : ∀ j < bitLen x, bitAt x j = (enc v).getD j false)
    (hfit : totalLength v ≤ bitLen x)
    (hNL : ∀ c ∈ v.dropLast, c.natAbs ≤ 12159)
    (hL : (v.getLastD 0).natAbs < 32768) :
    decompress x v.length = .ok v := by
  rcases List.eq_nil_or_concat v with rfl | ⟨vs, c, rfl⟩
  · exact absurd rfl hne
  · simp only [List.concat_eq_append] at hne hbits hfit hNL hL ⊢
    have hencv : enc (vs ++ [c]) = enc vs ++ encOne c := by
      rw [enc_append]
      simp [enc]
    have henclen : (enc vs).length = totalLength vs := length_enc vs
    have hlast1 : totalLength [c] = 9 + c.natAbs >>> 7 := totalLength_single c
    have htot : totalLength (vs ++ [c]) = totalLength vs + (9 + c.natAbs >>> 7) := by
      rw [totalLength_append, hlast1]
    have hcabs : c.natAbs < 32768 := by
      rwa [List.getLastD_concat] at hL
    have hbloop : ∀ j < totalLength vs, bitAt x (0 + j) = (enc vs).getD j false := by
      intro j hj
      rw [Nat.zero_add]
      have h1 := hbits j (by omega)
      rwa [hencv, List.getD_eq_getElem?_getD, List.getElem?_append,
        if_pos (by omega), ← List.getD_eq_getElem?_getD] at h1
    have hdl := @dloop_sound x hw vs 0 false hbloop (by omega)
      (by
        intro c2 hc2
        refine hNL c2 ?_
        rwa [List.dropLast_concat])
    have hblast : ∀ j < 9 + c.natAbs >>> 7,
        bitAt x (totalLength vs + j) = (encOne c).getD j false := by
      intro j hj
      have h1 := hbits (totalLength vs + j) (by omega)
      rwa [hencv, List.getD_eq_getElem?_getD, List.getElem?_append,
        if_neg (by omega), henclen,
        show totalLength vs + j - totalLength vs = j from by omega,
        ← List.getD_eq_getElem?_getD] at h1
    have hrl := @roundL_sound x hw (totalLength vs) c hblast
      (by omega) hcabs
    have hlen : (vs ++ [c]).length = vs.length + 1 := by simp
    rw [hlen]
    simp only [decompress]
    rw [Nat.zero_add] at hdl
    rw [hdl]
    simp only [okBind]
    rw [hrl]
    simp only [okBind]
    rw [encOne_flag c]
    simp only [Bool.or_false, Bool.false_eq_true, if_false]
    have hpad : paddingBad x (totalLength vs + 9 + c.natAbs >>> 7) = false := by
      refine padding_sound hw fun j hj hjlen => ?_
      have h1 := hbits j hjlen
      rw [h1, List.getD_eq_getElem?_getD, List.getElem?_eq_none]
      · rfl
      · rw [length_enc, htot]
        omega
    rw [hpad]
    simp

/-! ## Compress: write characterization -/

/-- The terminator write `bytes[cldiv8] |= 128 >> clmod8` sets exactly the bit
at stream position `counter + len - 1`. -/
theorem term_bit_eq (counter len j : Nat) :
    (decide (j / 8 = (counter + len - 1) / 8) &&
      Nat.testBit (128 >>> ((counter + len - 1) % 8)) (7 - j % 8))
      = decide (j = counter + len - 1) := by
  have h128 : (128 : Nat) = 2 ^ 7 := by norm_num
  rw [Nat.testBit_shiftRight, h128, Nat.testBit_two_pow]
  have hj8 : j % 8 < 8 := Nat.mod_lt _ (by norm_num)
  have hc8 : (counter + len - 1) % 8 < 8 := Nat.mod_lt _ (by norm_num)
  have hdj : 8 * (j / 8) + j % 8 = j := Nat.div_add_mod j 8
  have hdc : 8 * ((counter + len - 1) / 8) + (counter + len - 1) % 8
      = counter + len - 1 := Nat.div_add_mod _ 8
  by_cases h : j = counter + len - 1
  · subst h
    rw [decide_eq_true rfl, decide_eq_true rfl, Bool.true_and, decide_eq_true_eq]
    omega
  · rw [decide_eq_false h]
    rw [Bool.and_eq_false_iff]
    by_cases hd : j / 8 = (counter + len - 1) / 8
    · right
      rw [decide_eq_false_iff_not]
      omega
    · left
      exact decide_eq_false hd

/-- The zero-valued second terminator write: for `clmod8 < 8` the pushed-out
byte is zero. -/
theorem term2_zero (clmod8 : Nat) (h : clmod8 < 8) :
    (128 <<< (8 - clmod8)) % 256 = 0 := by
  rw [Nat.shiftLeft_eq]
  have h1 : (128 : Nat) * 2 ^ (8 - clmod8) = 256 * 2 ^ (7 - clmod8) := by
    rw [show 8 - clmod8 = (7 - clmod8) + 1 from by omega, pow_succ]
    ring
  rw [h1]
  exact Nat.mul_mod_right 256 _

/-- The two data-byte writes of one coefficient set exactly the eight stream
bits `counter, …, counter + 7` to the bits of the data byte, most significant
first. -/
theorem data_bits_eq {counter coeff j : Nat} (hco : coeff < 256) :
    ((decide (j / 8 = counter / 8) &&
        Nat.testBit (coeff >>> (counter % 8)) (7 - j % 8)) ||
      (decide (j / 8 = counter / 8 + 1) &&
        Nat.testBit ((coeff <<< (8 - counter % 8)) % 256) (7 - j % 8)))
      = (decide (counter ≤ j ∧ j < counter + 8) &&
          Nat.testBit coeff (7 - (j - counter))) := by
  have hj8 : j % 8 < 8 := Nat.mod_lt _ (by norm_num)
  have hc8 : counter % 8 < 8 := Nat.mod_lt _ (by norm_num)
  have hdj : 8 * (j / 8) + j % 8 = j := Nat.div_add_mod j 8
  have hdc : 8 * (counter / 8) + counter % 8 = counter := Nat.div_add_mod counter 8
  rw [Nat.testBit_shiftRight,
    show (256 : Nat) = 2 ^ 8 from by norm_num, Nat.testBit_mod_two_pow,
    Nat.testBit_shiftLeft]
  by_cases hd1 : j / 8 = counter / 8
  · have hd2 : ¬(j / 8 = counter / 8 + 1) := by omega
    rw [decide_eq_true hd1, decide_eq_false hd2, Bool.true_and, Bool.false_and,
      Bool.or_false]
    by_cases hm : counter % 8 ≤ j % 8
    · have hrange : counter ≤ j ∧ j < counter + 8 := by omega
      rw [decide_eq_true hrange, Bool.true_and]
      congr 1
      omega
    · have hhi : coeff.testBit (counter % 8 + (7 - j % 8)) = false :=
        testBit_false_of_lt256 hco (by omega)
      rw [hhi]
      have hrange : ¬(counter ≤ j ∧ j < counter + 8) := by omega
      rw [decide_eq_false hrange, Bool.false_and]
  · by_cases hd2 : j / 8 = counter / 8 + 1
    · rw [decide_eq_false hd1, decide_eq_true hd2, Bool.true_and, Bool.false_and,
        Bool.false_or]
      by_cases hm : j % 8 < counter % 8
      · have ha : (decide (7 - j % 8 < 8)) = true := by
          rw [decide_eq_true_eq]
          omega
        have hb : (decide (7 - j % 8 ≥ 8 - counter % 8)) = true := by
          rw [decide_eq_true_eq]
          omega
        rw [ha, hb, Bool.true_and, Bool.true_and]
        have hrange : counter ≤ j ∧ j < counter + 8 := by omega
        rw [decide_eq_true hrange, Bool.true_and]
        congr 1
        omega
      · have hb : (decide (7 - j % 8 ≥ 8 - counter % 8)) = false := by
          rw [decide_eq_false_iff_not]
          omega
        rw [hb, Bool.false_and, Bool.and_false]
        have hrange : ¬(counter ≤ j ∧ j < counter + 8) := by omega
        rw [decide_eq_false hrange, Bool.false_and]
    · rw [decide_eq_false hd1, decide_eq_false hd2, Bool.false_and, Bool.false_and,
        Bool.or_self]
      have hrange : ¬(counter ≤ j ∧ j < counter + 8) := by omega
      rw [decide_eq_false hrange, Bool.false_and]

theorem orByte_step {x : Bytes} (i : Nat) (hi : i < x.length) (v : Nat)
    (hv : v < 256) (hwf : wfB x) :
    ∃ y, orByte x i v = .ok y ∧ y.length = x.length ∧ wfB y ∧
      ∀ j, bitAt y j = (bitAt x j || (decide (j / 8 = i) && Nat.testBit v (7 - j % 8))) :=
  ⟨_, orByte_ok hi v, length_orWrite x i v, wfB_orWrite hwf hv i,
    fun j => bitAt_orWrite hi v j⟩

theorem shiftRight_lt256 {a : Nat} (h : a < 256) (c : Nat) : a >>> c < 256 := by
  rw [Nat.shiftRight_eq_div_pow]
  exact Nat.lt_of_le_of_lt (Nat.div_le_self _ _) h

theorem emitCoeff_writes {bytes : Bytes} (counter : Nat) {len coeff : Nat}
    (hwf : wfB bytes) (h9 : 9 ≤ len) (hco : coeff < 256)
    (hfit : counter + len + 9 ≤ 8 * bytes.length) :
    ∃ b4, emitCoeff bytes counter len coeff = .ok b4 ∧
      b4.length = bytes.length ∧ wfB b4 ∧
      ∀ j, bitAt b4 j = (bitAt bytes j ||
        ((decide (counter ≤ j ∧ j < counter + 8) &&
          Nat.testBit coeff (7 - (j - counter))) ||
          decide (j = counter + len - 1))) := by
  have hi1 : counter / 8 < bytes.length := by omega
  have hi2 : counter / 8 + 1 < bytes.length := by omega
  have hi3 : (counter + len - 1) / 8 < bytes.length := by omega
  have hi4 : (counter + len - 1) / 8 + 1 < bytes.length := by omega
  obtain ⟨b1, e1, l1, w1, c1⟩ :=
    orByte_step _ hi1 _ (shiftRight_lt256 hco _) hwf
  obtain ⟨b2, e2, l2, w2, c2⟩ :=
    orByte_step (counter / 8 + 1) (by omega)
      ((coeff <<< (8 - counter % 8)) % 256) (Nat.mod_lt _ (by norm_num)) w1
  obtain ⟨b3, e3, l3, w3, c3⟩ :=
    orByte_step ((counter + len - 1) / 8) (by omega)
      (128 >>> ((counter + len - 1) % 8)) (shiftRight_lt256 (by norm_num) _) w2
  obtain ⟨b4, e4, l4, w4, c4⟩ :=
    orByte_step ((counter + len - 1) / 8 + 1) (by omega)
      ((128 <<< (8 - (counter + len - 1) % 8)) % 256)
      (Nat.mod_lt _ (by norm_num)) w3
  refine ⟨b4, ?_, by omega, w4, ?_⟩
  · simp only [emitCoeff]
    rw [e1]
    simp only [okBind]
    rw [e2]
    simp only [okBind]
    rw [e3]
    simp only [okBind]
    rw [e4]
    simp only [okBind, pureOk]
  · intro j
    rw [c4 j, c3 j, c2 j, c1 j]
    rw [term2_zero _ (Nat.mod_lt _ (by norm_num)), Nat.zero_testBit,
      Bool.and_false, Bool.or_false]
    rw [Bool.or_assoc (bitAt bytes j), Bool.or_assoc (bitAt bytes j)]
    rw [data_bits_eq hco, term_bit_eq]

theorem cc_len (c : Int) : (compress_coefficient c).1 = 9 + c.natAbs >>> 7 := by
  simp [compress_coefficient]
  omega

theorem cc_byte_bit7 (c : Int) :
    Nat.testBit (compress_coefficient c).2 7 = decide (c < 0) := by
  simp only [compress_coefficient, Nat.testBit_lor, Nat.testBit_shiftLeft]
  have hlow : (c.natAbs &&& 127).testBit 7 = false :=
    testBit_false_of_lt128 (and127_lt _) (le_refl 7)
  rw [hlow, Bool.or_false]
  by_cases h : c < 0 <;> simp [h]

theorem cc_byte_bit_low (c : Int) (t : Nat) (ht : t < 7) :
    Nat.testBit (compress_coefficient c).2 t
      = Nat.testBit (c.natAbs &&& 127) t := by
  simp only [compress_coefficient, Nat.testBit_lor, Nat.testBit_shiftLeft]
  have h7 : (decide (t ≥ 7)) = false := by
    rw [decide_eq_false_iff_not]
    omega
  rw [h7, Bool.false_and, Bool.false_or]

/-- The contribution of one coefficient's writes at stream offset `j - counter`
is exactly the reference encoding bit there. -/
theorem emit_bits_encOne (c : Int) {counter : Nat} (j : Nat) (hj : counter ≤ j) :
    ((decide (counter ≤ j ∧ j < counter + 8) &&
      Nat.testBit (compress_coefficient c).2 (7 - (j - counter))) ||
      decide (j = counter + (compress_coefficient c).1 - 1))
    = (encOne c).getD (j - counter) false := by
  rw [cc_len]
  rcases Nat.exists_eq_add_of_le hj with ⟨o, rfl⟩
  rw [show counter + o - counter = o from by omega]
  rcases o with _ | o2
  · rw [Nat.add_zero, encOne_getD_zero,
      decide_eq_true (show counter ≤ counter ∧ counter < counter + 8 by omega),
      Bool.true_and,
      show (7 : Nat) - 0 = 7 from rfl, cc_byte_bit7,
      decide_eq_false (show ¬(counter = counter + (9 + c.natAbs >>> 7) - 1) by omega),
      Bool.or_false]
  · by_cases h7 : o2 < 7
    · rw [decide_eq_true (show counter ≤ counter + (o2 + 1) ∧
          counter + (o2 + 1) < counter + 8 by omega), Bool.true_and,
        decide_eq_false (show ¬(counter + (o2 + 1)
          = counter + (9 + c.natAbs >>> 7) - 1) by omega), Bool.or_false,
        show o2 + 1 = 1 + o2 from by omega, encOne_getD_low c o2 h7,
        cc_byte_bit_low c _ (by omega)]
      congr 1
      omega
    · rw [decide_eq_false (show ¬(counter ≤ counter + (o2 + 1) ∧
          counter + (o2 + 1) < counter + 8) by omega), Bool.false_and,
        Bool.false_or]
      by_cases hterm : o2 + 1 = 8 + c.natAbs >>> 7
      · rw [hterm, encOne_getD_term,
          decide_eq_true (show counter + (8 + c.natAbs >>> 7)
            = counter + (9 + c.natAbs >>> 7) - 1 by omega)]
      · by_cases hhi : o2 + 1 < 8 + c.natAbs >>> 7
        · rw [show o2 + 1 = 8 + (o2 - 7) from by omega,
            encOne_getD_high c (o2 - 7) (by omega),
            decide_eq_false (show ¬(counter + (8 + (o2 - 7))
              = counter + (9 + c.natAbs >>> 7) - 1) by omega)]
        · rw [encOne_getD_ge c _ (by omega),
            decide_eq_false (show ¬(counter + (o2 + 1)
              = counter + (9 + c.natAbs >>> 7) - 1) by omega)]

theorem emitLoop_enc : ∀ (cs : List Int) {bytes : Bytes}, wfB bytes → ∀ (counter : Nat),
    (∀ j, counter ≤ j → bitAt bytes j = false) →
    counter + totalLength cs + 9 ≤ 8 * bytes.length →
    ∃ b, emitLoop bytes counter (cs.map compress_coefficient)
        = .ok (b, counter + totalLength cs) ∧
      b.length = bytes.length ∧ wfB b ∧
      (∀ j < counter, bitAt b j = bitAt bytes j) ∧
      (∀ j, counter ≤ j → bitAt b j = (enc cs).getD (j - counter) false) := by
  intro cs
  induction cs with
  | nil =>
      intro bytes hwf counter hpre hfit
      refine ⟨bytes, ?_, rfl, hwf, fun j _ => rfl, ?_⟩
      · simp [emitLoop, totalLength]
      · intro j hj
        rw [hpre j hj]
        simp [enc]
  | cons c cs ih =>
      intro bytes hwf counter hpre hfit
      have hlen9 : 9 ≤ (compress_coefficient c).1 := nine_le_len c
      have htotc : totalLength (c :: cs)
          = (compress_coefficient c).1 + totalLength cs := by
        rw [totalLength_cons, cc_len]
      obtain ⟨b4, he, hl, hw4, hc⟩ := emitCoeff_writes counter
        hwf hlen9 (coeffByte_lt c) (by omega)
      have hpre2 : ∀ j, counter + (compress_coefficient c).1 ≤ j → bitAt b4 j = false := by
        intro j hj
        rw [hc j, hpre j (by omega),
          decide_eq_false (show ¬(counter ≤ j ∧ j < counter + 8) by omega),
          decide_eq_false (show ¬(j = counter + (compress_coefficient c).1 - 1) by omega)]
        simp
      obtain ⟨bfin, hrec, hlfin, hwfin, hfin1, hfin2⟩ := ih hw4
        (counter + (compress_coefficient c).1) hpre2 (by omega)
      refine ⟨bfin, ?_, by omega, hwfin, ?_, ?_⟩
      · rcases hcc : compress_coefficient c with ⟨len, coeff⟩
        have he2 : emitCoeff bytes counter len coeff = .ok b4 := by
          rw [show len = (compress_coefficient c).1 from by rw [hcc],
            show coeff = (compress_coefficient c).2 from by rw [hcc]]
          exact he
        simp only [List.map_cons]
        rw [hcc]
        simp only [emitLoop]
        rw [he2]
        simp only [okBind]
        have hlen2 : len = (compress_coefficient c).1 := by rw [hcc]
        rw [hlen2, hrec]
        simp only [PRes.ok.injEq, Prod.mk.injEq]
        exact ⟨trivial, by omega⟩
      · intro j hj
        rw [hfin1 j (by omega), hc j,
          decide_eq_false (show ¬(counter ≤ j ∧ j < counter + 8) by omega),
          decide_eq_false (show ¬(j = counter + (compress_coefficient c).1 - 1) by omega)]
        simp
      · intro j hj
        have hlenc : (encOne c).length = (compress_coefficient c).1 := length_encOne c
        rw [enc_cons, List.getD_eq_getElem?_getD, List.getElem?_append]
        by_cases hcase : j < counter + (compress_coefficient c).1
        · rw [if_pos (by omega), ← List.getD_eq_getElem?_getD]
          rw [hfin1 j hcase, hc j, hpre j hj, Bool.false_or]
          exact emit_bits_encOne c _ hj
        · rw [if_neg (by omega), ← List.getD_eq_getElem?_getD]
          have := hfin2 j (by omega)
          rw [this, hlenc]
          congr 1
          have := length_enc cs
          omega

theorem wfB_replicate (B : Nat) : wfB (List.replicate B 0) := by
  intro p
  rw [List.getD_eq_getElem?_getD, List.getElem?_replicate]
  split <;> simp

theorem bitAt_replicate (B j : Nat) : bitAt (List.replicate B 0) j = false := by
  unfold bitAt
  rw [List.getD_eq_getElem?_getD, List.getElem?_replicate]
  split <;> simp [Nat.zero_testBit]

theorem compress_ok_spec {v : List Int} {B : Nat} (hne : v ≠ [])
    (hfit : totalLength v ≤ 8 * B) :
    ∃ w, compress v B = .ok w ∧ w.length = B ∧ wfB w ∧
      ∀ j, bitAt w j = (enc v).getD j false := by
  rcases List.eq_nil_or_concat v with rfl | ⟨vs, c, rfl⟩
  · exact absurd rfl hne
  · simp only [List.concat_eq_append] at hne hfit ⊢
    have hsum : ((((vs ++ [c]).map compress_coefficient).map fun p => p.1).sum)
        = totalLength (vs ++ [c]) := by
      rw [List.map_map]
      rfl
    have htake : ((vs ++ [c]).map compress_coefficient).take ((vs ++ [c]).length - 1)
        = vs.map compress_coefficient := by
      rw [List.map_append]
      simp only [List.length_append, List.length_cons, List.length_nil]
      rw [show vs.length + 1 - 1 = (vs.map compress_coefficient).length from by simp]
      exact List.take_left _ _
    have hlast : ((vs ++ [c]).map compress_coefficient).getLastD (0, 0)
        = compress_coefficient c := by
      rw [List.map_append]
      simp [List.getLastD_concat]
    have htotv : totalLength (vs ++ [c])
        = totalLength vs + (compress_coefficient c).1 := by
      rw [totalLength_append, totalLength_single, cc_len]
    have hlen9 : 9 ≤ (compress_coefficient c).1 := nine_le_len c
    simp only [compress]
    rw [hsum, if_neg (show ¬(totalLength (vs ++ [c]) > B * 8) by omega),
      if_neg (show ¬((vs ++ [c]).isEmpty = true) by
        rw [List.isEmpty_iff]
        exact hne)]
    rw [htake, hlast]
    obtain ⟨b, hel, hlb, hwb, -, hbase⟩ := emitLoop_enc vs (wfB_replicate B) 0
      (fun j _ => bitAt_replicate B j) (by simp; omega)
    rw [hel]
    simp only [okBind, Nat.zero_add]
    rcases hcc : compress_coefficient c with ⟨len, coeff⟩
    have hlenv : len = (compress_coefficient c).1 := by rw [hcc]
    have hcov : coeff = (compress_coefficient c).2 := by rw [hcc]
    have hco256 : coeff < 256 := by
      rw [hcov]
      exact coeffByte_lt c
    have hLB : b.length = B := by simp at hlb; omega
    set counter := totalLength vs with hcounter
    have hi1 : counter / 8 < b.length := by omega
    have hi2 : counter / 8 + 1 < b.length := by omega
    have hi3 : (counter + len - 1) / 8 < b.length := by omega
    obtain ⟨b1, e1, l1, w1, c1⟩ := orByte_step _ hi1 _ (shiftRight_lt256 hco256 _) hwb
    obtain ⟨b2, e2, l2, w2, c2⟩ := orByte_step (counter / 8 + 1) (by omega)
      ((coeff <<< (8 - counter % 8)) % 256) (Nat.mod_lt _ (by norm_num)) w1
    obtain ⟨b3, e3, l3, w3, c3⟩ := orByte_step ((counter + len - 1) / 8)
      (by omega) (128 >>> ((counter + len - 1) % 8))
      (shiftRight_lt256 (by norm_num) _) w2
    have hbase2 : ∀ j, bitAt b j = (enc vs).getD j false := by
      intro j
      have h1 := hbase j (by omega)
      rwa [Nat.sub_zero] at h1
    have hle : (enc vs).length = counter := length_enc vs
    have henj : enc [c] = encOne c := by simp [enc]
    have hbits3 : ∀ j, bitAt b3 j = (enc (vs ++ [c])).getD j false := by
      intro j
      rw [c3 j, c2 j, c1 j,
        Bool.or_assoc (bitAt b j), data_bits_eq hco256, term_bit_eq,
        hbase2 j]
      conv_rhs => rw [enc_append]
      by_cases hj : j < counter
      · have hR : (enc vs ++ enc [c]).getD j false = (enc vs).getD j false := by
          rw [List.getD_eq_getElem?_getD, List.getElem?_append, if_pos (by omega),
            ← List.getD_eq_getElem?_getD]
        rw [hR, decide_eq_false (show ¬(counter ≤ j ∧ j < counter + 8) by omega),
          decide_eq_false (show ¬(j = counter + len - 1) by omega)]
        simp
      · have hR : (enc vs ++ enc [c]).getD j false
            = (encOne c).getD (j - counter) false := by
          rw [List.getD_eq_getElem?_getD, List.getElem?_append, if_neg (by omega),
            ← List.getD_eq_getElem?_getD, hle, henj]
        rw [hR]
        have hocase : (enc vs).getD j false = false := by
          rw [List.getD_eq_getElem?_getD, List.getElem?_eq_none (by omega)]
          rfl
        rw [hocase, Bool.false_or, hlenv, hcov]
        exact @emit_bits_encOne c counter j (by omega)
    rw [e1]
    simp only [okBind]
    rw [e2]
    simp only [okBind]
    rw [e3]
    simp only [okBind]
    by_cases hguard : (counter + len - 1) / 8 + 1 < B
    · rw [if_pos hguard]
      obtain ⟨b4, e4, l4, w4, c4⟩ := @orByte_step b3
        ((counter + len - 1) / 8 + 1) (by omega)
        ((128 <<< (8 - (counter + len - 1) % 8)) % 256)
        (Nat.mod_lt _ (by norm_num)) w3
      rw [e4]
      simp only [okBind, pureOk]
      refine ⟨b4, rfl, by omega, w4, ?_⟩
      intro j
      rw [c4 j, term2_zero _ (Nat.mod_lt _ (by norm_num)), Nat.zero_testBit,
        Bool.and_false, Bool.or_false]
      exact hbits3 j
    · rw [if_neg hguard, term2_zero _ (Nat.mod_lt _ (by norm_num))]
      simp only [ne_eq, not_true_eq_false, if_neg (show ¬((0 : Nat) ≠ 0) by omega),
        pureOk]
      exact ⟨b3, rfl, by omega, w3, hbits3⟩

theorem compress_fail_iff (v : List Int) (B : Nat) :
    compress v B = .fail ↔ (totalLength v > 8 * B ∨ v = []) := by
  constructor
  · intro h
    by_cases hover : totalLength v > 8 * B
    · exact Or.inl hover
    · by_cases hemp : v = []
      · exact Or.inr hemp
      · obtain ⟨w, hok, -, -, -⟩ := @compress_ok_spec v B hemp (by omega)
        rw [hok] at h
        exact absurd h (by simp)
  · intro h
    rcases h with h | h
    · simp only [compress]
      have hs : ((v.map compress_coefficient).map fun p => p.1).sum = totalLength v := by
        rw [List.map_map]
        rfl
      rw [hs, if_pos (show totalLength v > B * 8 by omega)]
    · subst h
      simp [compress, totalLength]

/-- Round trip at the core level: a nonempty vector of in-range coefficients
that fits the byte budget compresses to a `byte_length`-byte string from which
`decompress` recovers it exactly. -/
theorem compress_decompress {v : List Int} {B : Nat} (hne : v ≠ [])
    (hfit : totalLength v ≤ 8 * B)
    (hNL : ∀ c ∈ v.dropLast, c.natAbs ≤ 12159)
    (hL : (v.getLastD 0).natAbs < 32768) :
    ∃ w, compress v B = .ok w ∧ w.length = B ∧
      decompress w v.length = .ok v := by
  obtain ⟨w, hok, hlen, hwf, hbits⟩ := compress_ok_spec hne hfit
  refine ⟨w, hok, hlen, ?_⟩
  refine decompress_sound hwf hne (fun j _ => hbits j) ?_ hNL hL
  unfold bitLen
  omega

/-! ## Decompress: completeness / canonicity -/

/-- Two well-formed byte strings with the same length and the same bit view are
equal. -/
theorem bytes_ext {w x : Bytes} (hww : wfB w) (hwx : wfB x)
    (hlen : w.length = x.length)
    (hbits : ∀ j < bitLen x, bitAt w j = bitAt x j) : w = x := by
  apply List.ext_getElem hlen
  intro p h1 h2
  have hval : w.getD p 0 = x.getD p 0 := by
    refine Nat.eq_of_testBit_eq fun t => ?_
    by_cases ht : t < 8
    · have hb := hbits (8 * p + (7 - t)) (by unfold bitLen; omega)
      unfold bitAt at hb
      rw [show (8 * p + (7 - t)) / 8 = p from by omega,
        show 7 - (8 * p + (7 - t)) % 8 = t from by omega] at hb
      exact hb
    · rw [testBit_false_of_lt256 (hww p) (by omega),
        testBit_false_of_lt256 (hwx p) (by omega)]
  have e1 : w[p] = w.getD p 0 := by
    rw [List.getD_eq_getElem?_getD, List.getElem?_eq_getElem h1]
    rfl
  have e2 : x[p] = x.getD p 0 := by
    rw [List.getD_eq_getElem?_getD, List.getElem?_eq_getElem h2]
    rfl
  rw [e1, e2, hval]

/-- Canonicity: when `decompress` succeeds and the last coefficient's encoded
magnitude does not overflow `i16`, re-compressing the result over the input's
byte length reproduces the input exactly. -/
theorem decompress_complete {x : Bytes} (hw : wfB x) {n : Nat} {v : List Int}
    {cs : List Int} {j1 : Nat} {ab : Bool} {sgn : Bool} {low high : Nat}
    {c : Int} {j2 : Nat}
    (hdl : dloop x n 0 false = .ok (cs, j1, ab))
    (hrl : roundL x j1 = .ok (sgn, low, high, c, j2))
    (hm : 128 * high + low < 32768)
    (h : decompress x (n + 1) = .ok v) :
    v = cs ++ [c] ∧ compress v x.length = .ok x := by
  simp only [decompress] at h
  rw [hdl] at h
  simp only [okBind] at h
  rw [hrl] at h
  simp only [okBind] at h
  by_cases hab : (ab || (low == 0 && high == 0 && sgn)) = true
  · rw [if_pos hab] at h
    exact absurd h (by simp)
  · rw [if_neg hab] at h
    rw [Bool.or_eq_true] at hab
    push_neg at hab
    have hab0 : ab = false := by
      cases ab
      · rfl
      · exact absurd rfl hab.1
    have hflag : (low == 0 && high == 0 && sgn) = false := by
      cases hfb : (low == 0 && high == 0 && sgn)
      · rfl
      · exact absurd hfb hab.2
    by_cases hpad : paddingBad x j2 = true
    · rw [if_pos hpad] at h
      exact absurd h (by simp)
    · rw [if_neg hpad] at h
      simp only [pureOk, PRes.ok.injEq] at h
      subst h
      rw [hab0] at hdl
      obtain ⟨hlenk, hj1, hbitsl, hsml⟩ := dloop_complete hw n hdl
      obtain ⟨hg8, hsgn, hlow, hlowbits, hceq, hj2, hz, ht, hth⟩ :=
        roundL_complete hw hrl
      have hrb := round_bits_encOne hlow hsgn hlowbits hz ht hm hflag
      rw [← hceq] at hrb
      obtain ⟨habs, hbitsOne⟩ := hrb
      have hhigh7 : c.natAbs >>> 7 = high := by
        rw [habs, shiftRight7_eq_div]
        omega
      have hlenc : (encOne c).length = 9 + high := by
        rw [length_encOne, cc_len, hhigh7]
      have htotv : totalLength (cs ++ [c]) = j1 + (9 + high) := by
        rw [totalLength_append, totalLength_single, hhigh7]
        omega
      have hpadall := padding_complete hw (Bool.not_eq_true _ |>.mp hpad)
      have hallbits : ∀ j < bitLen x,
          bitAt x j = (enc (cs ++ [c])).getD j false := by
        intro j hjlen
        rw [enc_append]
        have hlev : (enc cs).length = totalLength cs := length_enc cs
        by_cases hj : j < j1
        · have hR : (enc cs ++ enc [c]).getD j false = (enc cs).getD j false := by
            rw [List.getD_eq_getElem?_getD, List.getElem?_append, if_pos (by omega),
              ← List.getD_eq_getElem?_getD]
          rw [hR]
          have := hbitsl j (by omega)
          rwa [Nat.zero_add] at this
        · have hR : (enc cs ++ enc [c]).getD j false
              = (encOne c).getD (j - j1) false := by
            rw [List.getD_eq_getElem?_getD, List.getElem?_append, if_neg (by omega),
              ← List.getD_eq_getElem?_getD, hlev,
              show enc [c] = encOne c from by simp [enc]]
            congr 1
            omega
          rw [hR]
          by_cases hjr : j < j2
          · have := hbitsOne (j - j1) (by omega)
            rwa [show j1 + (j - j1) = j from by omega] at this
          · rw [hpadall j (by omega) hjlen]
            rw [List.getD_eq_getElem?_getD, List.getElem?_eq_none (by omega)]
            rfl
      have hne : cs ++ [c] ≠ [] := by simp
      have hfitv : totalLength (cs ++ [c]) ≤ 8 * x.length := by
        have : bitLen x = 8 * x.length := rfl
        omega
      obtain ⟨w, hok, hwlen, hwfw, hwbits⟩ := compress_ok_spec hne hfitv
      refine ⟨rfl, ?_⟩
      rw [hok]
      congr 1
      refine bytes_ext hwfw hw hwlen fun j hj => ?_
      rw [hwbits j, hallbits j hj]

/-! ## Failure lemmas for the high-bit scans -/

theorem scanHighF_fail95 {x : Bytes} : ∀ (m : Nat) {fuel idx0 high0 : Nat},
    bitLen x - idx0 < fuel →
    high0 + (m + 1) = 95 →
    (∀ u < m + 1, bitAt x (idx0 + u) = false) →
    idx0 + (m + 1) ≤ bitLen x →
    scanHighF x fuel idx0 high0 = .fail := by
  intro m
  induction m with
  | zero =>
      intro fuel idx0 high0 hfuel hcap hz hroom
      cases fuel with
      | zero => omega
      | succ f =>
          rw [scanHighF, if_pos (by omega)]
          have h0 : bitAt x idx0 = false := by simpa using hz 0 (by omega)
          rw [h0]
          simp only [Bool.false_eq_true, if_false]
          rw [if_pos (Or.inl (by omega))]
  | succ m ih =>
      intro fuel idx0 high0 hfuel hcap hz hroom
      cases fuel with
      | zero => omega
      | succ f =>
          rw [scanHighF, if_pos (by omega)]
          have h0 : bitAt x idx0 = false := by simpa using hz 0 (by omega)
          rw [h0]
          simp only [Bool.false_eq_true, if_false]
          by_cases hg : high0 + 1 = 95 ∨ idx0 + 2 = bitLen x
          · rw [if_pos hg]
          · rw [if_neg hg]
            refine ih (by omega) (by omega) ?_ (by omega)
            intro u hu
            have := hz (u + 1) (by omega)
            rwa [show idx0 + (u + 1) = idx0 + 1 + u from by omega] at this

/-- A non-last round whose high-bit region starts with 95 zero bits inside the
buffer is rejected. -/
theorem roundNL_cap {x : Bytes} (idx : Nat)
    (hz : ∀ u < 95, bitAt x (idx + 8 + u) = false)
    (hin : idx + 102 < bitLen x) :
    roundNL x idx = .fail := by
  have hlen : bitLen x = 8 * x.length := rfl
  simp only [roundNL]
  rw [if_neg (show ¬(idx + 8 ≥ bitLen x) by omega)]
  simp only [rdByte]
  rw [if_pos (show (idx + 1) / 8 < x.length by omega)]
  simp only [okBind]
  rw [if_pos (show (idx + 1) / 8 + 1 < x.length by omega)]
  simp only [okBind]
  have hscan : scanHigh x (idx + 1 + 7) 0 = .fail := by
    refine scanHighF_fail95 94 (by omega) (by omega) ?_ (by omega)
    intro u hu
    have := hz u (by omega)
    rwa [show idx + 8 + u = idx + 1 + 7 + u from by omega] at this
  rw [hscan]
  simp

theorem scanHLF_fail {x : Bytes} : ∀ (fuel idx0 : Nat),
    bitLen x - idx0 < fuel →
    idx0 < bitLen x →
    (∀ j, idx0 ≤ j → j < bitLen x → bitAt x j = false) →
    scanHLF x fuel idx0 0 = .fail := by
  intro fuel
  have main : ∀ fuel idx0 high0, bitLen x - idx0 < fuel → idx0 < bitLen x →
      (∀ j, idx0 ≤ j → j < bitLen x → bitAt x j = false) →
      scanHLF x fuel idx0 high0 = .fail := by
    intro fuel
    induction fuel with
    | zero => intro idx0 high0 hfuel hlt hz; omega
    | succ f ih =>
        intro idx0 high0 hfuel hlt hz
        rw [scanHLF, if_pos hlt]
        rw [hz idx0 (le_refl _) hlt]
        simp only [Bool.false_eq_true, if_false]
        by_cases hg : idx0 + 1 = bitLen x
        · rw [if_pos hg]
        · rw [if_neg hg]
          exact ih (idx0 + 1) (high0 + 1) (by omega) (by omega)
            (fun j hj hjl => hz j (by omega) hjl)
  exact fun i h1 h2 h3 => main fuel i 0 h1 h2 h3

/-- A last round all of whose remaining bits (from the high-bit region on) are
zero runs past the end of the buffer and is rejected. -/
theorem roundL_pastEnd {x : Bytes} (idx : Nat)
    (hz : ∀ j, idx + 8 ≤ j → j < bitLen x → bitAt x j = false) :
    roundL x idx = .fail := by
  have hlen : bitLen x = 8 * x.length := rfl
  simp only [roundL]
  by_cases h1 : idx + 8 ≥ bitLen x
  · rw [if_pos h1]
  · rw [if_neg h1, if_neg (show ¬(bitLen x = idx) by omega)]
    simp only [rdByte]
    rw [if_pos (show (idx + 1) / 8 < x.length by omega)]
    simp only [okBind]
    by_cases h3 : bitLen x = idx + 1 + 7
    · by_cases h2 : (idx + 1) % 8 ≠ 0 ∧ (idx + 1) / 8 + 1 < x.length
      · rw [if_pos h2, if_pos h2.2]
        simp only [okBind, pureOk]
        rw [if_pos h3]
      · rw [if_neg h2]
        by_cases h2b : (idx + 1) % 8 ≠ 0
        · rw [if_pos h2b]
          simp only [failBind]
        · rw [if_neg h2b]
          simp only [okBind, pureOk]
          rw [if_pos h3]
    · have hscan : scanHL x (idx + 1 + 7) 0 = .fail := by
        rw [scanHL]
        exact scanHLF_fail _ _ (by omega) (by omega)
          (fun j hj hjl => hz j (by omega) hjl)
      by_cases h2 : (idx + 1) % 8 ≠ 0 ∧ (idx + 1) / 8 + 1 < x.length
      · rw [if_pos h2, if_pos h2.2]
        simp only [okBind, pureOk]
        rw [if_neg h3, hscan]
        simp only [failBind]
      · rw [if_neg h2]
        by_cases h2b : (idx + 1) % 8 ≠ 0
        · rw [if_pos h2b]
          simp only [failBind]
        · rw [if_neg h2b]
          simp only [okBind, pureOk]
          rw [if_neg h3, hscan]
          simp only [failBind]

/-- The decompression loop splits at any round count. -/
theorem dloop_split (x : Bytes) : ∀ (a b idx : Nat) (ab : Bool),
    dloop x (a + b) idx ab = (do
      let (cs1, i1, ab1) ← dloop x a idx ab
      let (cs2, i2, ab2) ← dloop x b i1 ab1
      pure (cs1 ++ cs2, i2, ab2)) := by
  intro a
  induction a with
  | zero =>
      intro b idx ab
      simp only [Nat.zero_add, dloop, pureOk, okBind]
      cases h : dloop x b idx ab with
      | ok r =>
          rcases r with ⟨cs, i, a2⟩
          simp only [okBind, pureOk, List.nil_append]
      | fail => simp only [failBind]
      | crash => simp only [crashBind]
  | succ a ih =>
      intro b idx ab
      rw [show a + 1 + b = (a + b) + 1 from by omega]
      simp only [dloop]
      cases hr : roundNL x idx with
      | ok r =>
          rcases r with ⟨sgn, low, high, i2⟩
          simp only [okBind]
          rw [ih b i2 (ab || (low == 0 && high == 0 && sgn))]
          cases ha : dloop x a i2 (ab || (low == 0 && high == 0 && sgn)) with
          | ok r1 =>
              rcases r1 with ⟨cs1, j1, ab1⟩
              simp only [okBind]
              cases hb : dloop x b j1 ab1 with
              | ok r2 =>
                  rcases r2 with ⟨cs2, j2, ab2⟩
                  simp only [hb, okBind, pureOk, List.cons_append]
              | fail => simp only [pureOk, okBind, hb, failBind]
              | crash => simp only [pureOk, okBind, hb, crashBind]
          | fail => simp only [failBind]
          | crash => simp only [crashBind]
      | fail => simp only [failBind]
      | crash => simp only [crashBind]

/-! ## Claim C3: compression round trip -/

theorem getLastD_mem {v : List Int} (hne : v ≠ []) : v.getLastD 0 ∈ v := by
  rcases List.eq_nil_or_concat v with rfl | ⟨vs, c, rfl⟩
  · exact absurd rfl hne
  · simp only [List.concat_eq_append, List.getLastD_concat]
    exact List.mem_append_right _ (List.mem_singleton.mpr rfl)

/-- C3: for every non-empty vector of coefficients with `|v_i| < 2048` and every
byte budget at least the encoded length in bytes, `compress` succeeds with
exactly `byte_length` bytes, `decompress` recovers the vector, and
re-compressing the recovered vector with the same budget yields the identical
byte string. -/
theorem C3_compress_decompress_roundtrip (v : List Int) (B : Nat)
    (hne : v ≠ []) (hrange : ∀ c ∈ v, c.natAbs < 2048)
    (hbudget : (totalLength v + 7) / 8 ≤ B) :
    ∃ w, compress v B = .ok w ∧ w.length = B ∧
      decompress w v.length = .ok v ∧
      ∀ u, decompress w v.length = .ok u → compress u B = .ok w := by
  have hfit : totalLength v ≤ 8 * B := by omega
  obtain ⟨w, hok, hlen, hdec⟩ := compress_decompress hne hfit
    (fun c hc => le_of_lt (lt_of_lt_of_le
      (hrange c (List.dropLast_subset v hc)) (by omega)))
    (lt_of_lt_of_le (hrange _ (getLastD_mem hne)) (by omega))
  refine ⟨w, hok, hlen, hdec, fun u hu => ?_⟩
  rw [hdec] at hu
  obtain rfl : v = u := by injection hu
  exact hok

/-- C3 witness: the vector `[1, -2]` with a 3-byte budget. -/
theorem C3_witness :
    ∃ w, compress [1, -2] 3 = .ok w ∧ w.length = 3 ∧
      decompress w 2 = .ok [1, -2] ∧
      ∀ u, decompress w 2 = .ok u → compress u 3 = .ok w :=
  C3_compress_decompress_roundtrip [1, -2] 3 (by decide) (by decide) (by decide)

/-! ## Claim C4: compression failure condition -/

/-- C4 counterexample: the empty vector fits any budget (total encoded length
0 ≤ 8 bits) yet `compress` returns `None`. -/
theorem C4_counterexample :
    compress ([] : List Int) 1 = .fail ∧ totalLength [] ≤ 8 * 1 := by
  constructor
  · rfl
  · decide

/-- C4 (amended): `compress v byte_length` fails exactly when the total encoded
bit-length exceeds `8 * byte_length` **or `v` is empty**; on a non-empty vector
within budget it returns a byte string of exactly `byte_length` bytes. -/
theorem C4_compress_fail_characterisation (v : List Int) (B : Nat) :
    (compress v B = .fail ↔ (totalLength v > 8 * B ∨ v = [])) ∧
    (totalLength v ≤ 8 * B → v ≠ [] →
      ∃ w, compress v B = .ok w ∧ w.length = B) := by
  refine ⟨compress_fail_iff v B, fun hfit hne => ?_⟩
  obtain ⟨w, hok, hlen, -, -⟩ := compress_ok_spec hne hfit
  exact ⟨w, hok, hlen⟩

/-- C4 witness: `[5]` needs 10 bits, so it fails on 1 byte and succeeds on 2
bytes with a 2-byte output. -/
theorem C4_witness :
    (compress [(5 : Int)] 1 = .fail ↔
      (totalLength [(5 : Int)] > 8 * 1 ∨ [(5 : Int)] = [])) ∧
    (∃ w, compress [(5 : Int)] 2 = .ok w ∧ w.length = 2) :=
  ⟨(C4_compress_fail_characterisation [(5 : Int)] 1).1,
   (C4_compress_fail_characterisation [(5 : Int)] 2).2 (by decide) (by decide)⟩

/-! ## Claim C5: negative-zero rejection -/

/-- C5 counterexample: the first coefficient of `[128, 128, 130, 0]` decodes
with the negative-zero pattern (the abort flag comes back `true`), but with
`n = 4` the decoder panics on an out-of-bounds read in a later round instead of
returning `None`. -/
theorem C5_counterexample :
    dloop [128, 128, 130, 0] 1 0 false = .ok ([0], 9, true) ∧
    decompress [128, 128, 130, 0] 4 = .crash := by
  constructor
  · decide
  · decide

/-- C5 (amended): a negative-zero encoding — in one of the first `n` rounds
(abort flag set) or in the last round (`sign = 1`, `low = 0`, `high = 0`) —
means `decompress` never returns a value; it does not always return `None`,
since a later round may panic first. -/
theorem C5_negative_zero_never_accepted :
    (∀ (x : Bytes) (n : Nat) (cs : List Int) (i1 : Nat),
      dloop x n 0 false = .ok (cs, i1, true) →
      ∀ v, decompress x (n + 1) ≠ .ok v) ∧
    (∀ (x : Bytes) (n : Nat) (cs : List Int) (i1 : Nat) (ab : Bool)
        (c : Int) (i2 : Nat),
      dloop x n 0 false = .ok (cs, i1, ab) →
      roundL x i1 = .ok (true, 0, 0, c, i2) →
      ∀ v, decompress x (n + 1) ≠ .ok v) := by
  constructor
  · intro x n cs i1 hdl v h
    simp only [decompress] at h
    rw [hdl] at h
    simp only [okBind] at h
    cases hrl : roundL x i1 with
    | ok r =>
        rcases r with ⟨sgn, low, high, c, i2⟩
        rw [hrl] at h
        simp only [okBind, Bool.true_or, if_true] at h
        exact absurd h (by simp)
    | fail =>
        rw [hrl] at h
        simp only [failBind] at h
        exact absurd h (by simp)
    | crash =>
        rw [hrl] at h
        simp only [crashBind] at h
        exact absurd h (by simp)
  · intro x n cs i1 ab c i2 hdl hrl v h
    simp only [decompress] at h
    rw [hdl] at h
    simp only [okBind] at h
    rw [hrl] at h
    simp only [okBind] at h
    simp at h

/-- C5 witness: a first-round negative zero (`[128, 128, 192]`) and a
last-round negative zero (`[1, 192, 64]`), neither accepted. -/
theorem C5_witness :
    decompress [128, 128, 192] 2 ≠ .ok [0, 0] ∧
    decompress [1, 192, 64] 2 ≠ .ok [1, 0] :=
  ⟨C5_negative_zero_never_accepted.1 [128, 128, 192] 1 [0] 9 (by decide) [0, 0],
   C5_negative_zero_never_accepted.2 [1, 192, 64] 1 [1] 9 false 0 18
     (by decide) (by decide) [1, 0]⟩

/-! ## Claim C6: padding rejection -/

/-- C6: when all `n` coefficient reads succeed, any set bit at or after the
final terminator makes `decompress` return `None`. -/
theorem C6_padding_rejection (x : Bytes) (n : Nat) (cs : List Int) (i1 : Nat)
    (ab sgn : Bool) (low high : Nat) (c : Int) (i2 : Nat)
    (hw : wfB x)
    (hdl : dloop x n 0 false = .ok (cs, i1, ab))
    (hrl : roundL x i1 = .ok (sgn, low, high, c, i2))
    (hbit : ∃ j, i2 ≤ j ∧ j < bitLen x ∧ bitAt x j = true) :
    decompress x (n + 1) = .fail := by
  simp only [decompress]
  rw [hdl]
  simp only [okBind]
  rw [hrl]
  simp only [okBind]
  by_cases hab : (ab || (low == 0 && high == 0 && sgn)) = true
  · rw [if_pos hab]
  · rw [if_neg hab]
    by_cases hpb : paddingBad x i2 = true
    · rw [if_pos hpb]
    · obtain ⟨j, hj1, hj2, hj3⟩ := hbit
      have hclean := padding_complete hw (by simpa using hpb) j hj1 hj2
      rw [hj3] at hclean
      exact absurd hclean (by decide)

/-- C6 witness: in `[0, 192]` the single coefficient `0` ends at bit 9 and
bit 9 is set, so decompression fails. -/
theorem C6_witness : decompress [0, 192] 1 = .fail :=
  C6_padding_rejection [0, 192] 0 [] 0 false false 0 0 0 9
    (wfB_of_mem (by decide)) (by decide) (by decide)
    ⟨9, by decide, by decide, by decide⟩

/-! ## Claim C7: cap and buffer-overrun rejection -/

/-- C7 counterexample: in the **last** round a unary run of 95 zero bits is
accepted — the 95-cap is only checked in the first `n - 1` rounds — producing
the coefficient `95 * 128 = 12160`. -/
theorem C7_counterexample :
    roundL (List.replicate 12 0 ++ [1]) 0 = .ok (false, 0, 95, 12160, 104) ∧
    decompress (List.replicate 12 0 ++ [1]) 1 = .ok [12160] := by
  constructor
  · decide
  · decide

/-- C7 (amended): hitting the 95-zero-bit cap makes `decompress` return `None`
in the first `n` (non-last) rounds only; the last round has no cap, but a run
reaching the end of the buffer without a terminator is also rejected with
`None`. -/
theorem C7_cap_and_overrun_rejection :
    (∀ (x : Bytes) (n k : Nat) (cs : List Int) (idx : Nat) (ab : Bool),
      k < n →
      dloop x k 0 false = .ok (cs, idx, ab) →
      (∀ u < 95, bitAt x (idx + 8 + u) = false) →
      idx + 102 < bitLen x →
      decompress x (n + 1) = .fail) ∧
    (∀ (x : Bytes) (n : Nat) (cs : List Int) (idx : Nat) (ab : Bool),
      dloop x n 0 false = .ok (cs, idx, ab) →
      (∀ j, idx + 8 ≤ j → j < bitLen x → bitAt x j = false) →
      decompress x (n + 1) = .fail) := by
  constructor
  · intro x n k cs idx ab hk hdl hz hin
    simp only [decompress]
    rw [show n = k + (n - k) from by omega, dloop_split, hdl]
    simp only [okBind]
    rw [show n - k = (n - k - 1) + 1 from by omega]
    simp only [dloop]
    rw [roundNL_cap idx hz hin]
    simp only [failBind]
  · intro x n cs idx ab hdl hz
    simp only [decompress]
    rw [hdl]
    simp only [okBind]
    rw [roundL_pastEnd idx hz]
    simp only [failBind]

/-- C7 witness: 13 zero bytes trigger the 95-cap in the first round when
`n = 2`; two zero bytes end without a terminator when `n = 1`. -/
theorem C7_witness :
    decompress (List.replicate 13 0) 2 = .fail ∧
    decompress [0, 0] 1 = .fail :=
  ⟨C7_cap_and_overrun_rejection.1 (List.replicate 13 0) 1 0 [] 0 false
     (by decide) (by decide) (by decide) (by decide),
   C7_cap_and_overrun_rejection.2 [0, 0] 0 [] 0 false (by decide)
     (by intro j h1 h2; have h1' : 8 ≤ j := h1; have h2' : j < 16 := h2; interval_cases j <;> decide)⟩

/-! ## Claim C10: canonicity of accepted encodings -/

/-- C10 counterexample: `decompress` accepts a 256-zero unary run whose
coefficient `256 * 128 = 32768` overflows `i16` to `-32768`; re-compressing
that coefficient sets the sign bit, so the round trip does not reproduce the
input bytes. -/
theorem C10_counterexample :
    decompress (List.replicate 33 0 ++ [128]) 1 = .ok [-32768] ∧
    compress [(-32768 : Int)] 34 ≠ .ok (List.replicate 33 0 ++ [128]) := by
  constructor
  · decide
  · decide

/-- C10 (amended): canonicity holds whenever the last coefficient's encoded
magnitude fits `i16`: if `decompress x (n+1)` returns `Some v` and the last
round read `(low, high)` with `128 * high + low < 32768`, then re-compressing
`v` over `x.len()` bytes reproduces `x` exactly. -/
theorem C10_canonical_encodings (x : Bytes) (hb : ∀ b ∈ x, b < 256)
    (n : Nat) (v cs : List Int) (j1 : Nat) (ab sgn : Bool) (low high : Nat)
    (c : Int) (j2 : Nat)
    (hdl : dloop x n 0 false = .ok (cs, j1, ab))
    (hrl : roundL x j1 = .ok (sgn, low, high, c, j2))
    (hm : 128 * high + low < 32768)
    (h : decompress x (n + 1) = .ok v) :
    compress v x.length = .ok x :=
  (decompress_complete (wfB_of_mem hb) hdl hrl hm h).2

/-- C10 witness: `[0, 128]` decodes to `[0]` and re-compresses to itself. -/
theorem C10_witness : compress [(0 : Int)] 2 = .ok [0, 128] :=
  C10_canonical_encodings [0, 128] (by decide) 0 [0] [] 0 false false 0 0 0 9
    (by decide) (by decide) (by decide) (by decide)

/-! ## Claim C2: the decoder can panic on a 625-byte payload -/

/-- A 625-byte signature payload: 311 coefficients encoded as `0x7F 0x01`
pairs (16 bits each), one almost-full coefficient, and a final byte placing
the start of a round 9 bits short of the end of the buffer, where the decoder's
unguarded second byte read `x[x.len()]` is out of bounds. -/
def crafted625 : Bytes := List.flatten (List.replicate 311 [127, 1]) ++ [127, 2, 0]

/-- `decompress` panics (out-of-bounds slice read) on this 625-byte payload,
the exact payload length `verify` hands it for Falcon-512, instead of
returning `None`. -/
theorem crafted625_crash : decompress crafted625 512 = .crash := by decide

/-! # Spec-modelled signing and verification

`lib.rs` declares the modules `falcon`, `samplerz`, `ffsampling`, `math`,
`polynomial`, … but their files are absent from `src/`; `falcon512.rs` only
re-exports `falcon::{keygen, sign_with_rng, verify}` and the three serialisable
types.  The definitions below are therefore modelled from the spec: §3 (key
material: `f·G − g·F = q`, `h = g·f⁻¹ mod q`), §4.6 (signing loop), §4.7
(verification), §6 (serialised layouts), with the Falcon-512 parameters
`n = 512`, `q = 12289`, `‖s‖²`-bound `34034726` (§2).  The §4.6 assignment
`s1 = c − (z1·f + z2·F)`, `s2 = −(z1·g + z2·G)` contradicts §3/§4.7 (with
`h = g·f⁻¹` that `s2` does not satisfy `s1 + s2·h ≡ c`); the model uses the
orientation consistent with §3, §4.7 and §8 P1:
`s1 = c − (z1·g + z2·G)`, `s2 = z1·f + z2·F`. -/

/-- Integer polynomial of the spec model, one coefficient per entry. -/
abbrev ZPoly := List Int

/-- Coefficient-wise sum, truncated to length `n`. -/
def polyAdd (a b : ZPoly) (n : Nat) : ZPoly :=
  (List.range n).map fun k => a.getD k 0 + b.getD k 0

/-- Coefficient-wise difference, truncated to length `n`. -/
def polySub (a b : ZPoly) (n : Nat) : ZPoly :=
  (List.range n).map fun k => a.getD k 0 - b.getD k 0

/-- Sign picked up by the exponent wrap `x^s = -x^{s-n}` (for `s < 2n`) in
`Z[x]/(x^n + 1)`. -/
def wsgn (n s : Nat) : Int := if s < n then 1 else -1

/-- Sign of a double wrap (for `s < 3n`). -/
def wsgn3 (n s : Nat) : Int := if s < n then 1 else if s < 2 * n then -1 else 1

/-- Negacyclic product in `Z[x]/(x^n + 1)` (spec §3.2): coefficient `k` sums
`± a_i·b_j` over `i + j ≡ k (mod n)`, negated when the exponent wraps. -/
def naMul (a b : ZPoly) (n : Nat) : ZPoly :=
  (List.range n).map fun k =>
    ∑ i ∈ Finset.range n, ∑ j ∈ Finset.range n,
      if (i + j) % n = k then wsgn n (i + j) * (a.getD i 0 * b.getD j 0) else 0

/-- Coefficient-wise congruence mod `q = 12289` below index `n`. -/
def polyCong (a b : ZPoly) (n : Nat) : Prop :=
  ∀ k < n, a.getD k 0 % 12289 = b.getD k 0 % 12289

instance (a b : ZPoly) (n : Nat) : Decidable (polyCong a b n) :=
  inferInstanceAs (Decidable (∀ k < n, _ = _))

/-- Centred representative in `(-q/2, q/2]` of a residue mod `q = 12289`
(spec §4.7 step 4). -/
def centeredMod (z : Int) : Int :=
  let r := z % 12289
  if r ≤ 6144 then r else r - 12289

/-- Coefficient-wise centring, truncated to length `n`. -/
def cmod (a : ZPoly) (n : Nat) : ZPoly :=
  (List.range n).map fun k => centeredMod (a.getD k 0)

/-- Squared Euclidean norm (spec §4.6 step 3 / §4.7 step 5). -/
def normSq (a : ZPoly) : Int := (a.map fun z => z * z).sum

/-- The signer's recovered first vector `s1 = c − (z1·g + z2·G)`. -/
def mkS1 (n : Nat) (c g G z1 z2 : ZPoly) : ZPoly :=
  polySub c (polyAdd (naMul z1 g n) (naMul z2 G n) n) n

/-- The signer's second vector `s2 = z1·f + z2·F`, the compressed payload. -/
def mkS2 (n : Nat) (f F z1 z2 : ZPoly) : ZPoly :=
  polyAdd (naMul z1 f n) (naMul z2 F n) n

/-- Model of `falcon::Signature`: header byte, 40-byte salt, compressed
payload (spec §6). -/
structure SigModel where
  header : Nat
  salt : List Nat
  payload : Bytes
deriving Repr, DecidableEq

/-- The bounded retry loop of the signing procedure (spec §4.6 step 3-4):
attempt `i` draws `(z1, z2)` from the sampler stream, forms `(s1, s2)`, and
retries while the norm bound or the compression budget fails. -/
def signAttempts (n plen : Nat) (c f g F G : ZPoly)
    (samp : Nat → ZPoly × ZPoly) : Nat → Nat → PRes Bytes
  | _, 0 => .fail
  | i, fuel + 1 =>
    let z := samp i
    let s1 := mkS1 n c g G z.1 z.2
    let s2 := mkS2 n f F z.1 z.2
    if normSq s1 + normSq s2 ≤ 34034726 then
      match compress s2 plen with
      | .ok bytes => .ok bytes
      | _ => signAttempts n plen c f g F G samp (i + 1) fuel
    else signAttempts n plen c f g F G samp (i + 1) fuel

/-- Model of `falcon::sign_with_rng` (spec §4.6): draw the 40-byte salt from
the RNG stream, hash to a point, run the bounded sampling loop (cap 100), and
emit header `0x30 | logn`, salt, and the compressed payload.  `hash` models
`HashToPoint` and `samp` the `ffSampling` output as a function of the RNG
stream and the attempt index (spec: "the salt and all sampler consumption come
from the RNG in that order"). -/
def signModel (n logn plen : Nat) (hash : List Nat → List Nat → ZPoly)
    (samp : (Nat → Nat) → Nat → ZPoly × ZPoly)
    (msg : List Nat) (f g F G : ZPoly) (rng : Nat → Nat) : PRes SigModel :=
  let salt := (List.range 40).map rng
  let c := hash salt msg
  match signAttempts n plen c f g F G (samp rng) 0 100 with
  | .ok payload => .ok ⟨48 ||| logn, salt, payload⟩
  | .fail => .fail
  | .crash => .crash

/-- Model of `falcon::verify` (spec §4.7): check the header and the shape of
the signature, decompress the payload into `s2` (the real `decompress` of
encoding.rs, so a decoder panic propagates), recover
`s1 = c − s2·h mod q` centred, and accept iff `‖s1‖² + ‖s2‖² ≤ 34034726`. -/
def verifyModel (n logn plen : Nat) (hash : List Nat → List Nat → ZPoly)
    (msg : List Nat) (sig : SigModel) (h : ZPoly) : PRes Bool :=
  if sig.header ≠ 48 ||| logn then .ok false
  else if sig.salt.length ≠ 40 then .ok false
  else if sig.payload.length ≠ plen then .ok false
  else
    match decompress sig.payload n with
    | .fail => .ok false
    | .crash => .crash
    | .ok s2 =>
      let c := hash sig.salt msg
      let s1 := cmod (polySub c (naMul s2 h n) n) n
      .ok (decide (normSq s1 + normSq s2 ≤ 34034726))

/-! ## Pointwise lemmas for the polynomial model -/

theorem getD_rangeMap (f : Nat → Int) {n k : Nat} (hk : k < n) :
    ((List.range n).map f).getD k 0 = f k := by
  rw [List.getD_eq_getElem?_getD, List.getElem?_map, List.getElem?_range hk]
  rfl

theorem length_rangeMap (f : Nat → Int) (n : Nat) :
    ((List.range n).map f).length = n := by
  simp

theorem polyAdd_getD (a b : ZPoly) {n k : Nat} (hk : k < n) :
    (polyAdd a b n).getD k 0 = a.getD k 0 + b.getD k 0 :=
  getD_rangeMap _ hk

theorem polySub_getD (a b : ZPoly) {n k : Nat} (hk : k < n) :
    (polySub a b n).getD k 0 = a.getD k 0 - b.getD k 0 :=
  getD_rangeMap _ hk

theorem naMul_getD (a b : ZPoly) {n k : Nat} (hk : k < n) :
    (naMul a b n).getD k 0 =
      ∑ i ∈ Finset.range n, ∑ j ∈ Finset.range n,
        if (i + j) % n = k then wsgn n (i + j) * (a.getD i 0 * b.getD j 0)
        else 0 :=
  getD_rangeMap _ hk

theorem cmod_getD (a : ZPoly) {n k : Nat} (hk : k < n) :
    (cmod a n).getD k 0 = centeredMod (a.getD k 0) :=
  getD_rangeMap _ hk

/-- Two length-`n` range maps with the same generator below `n` agree. -/
theorem rangeMap_congr {f g : Nat → Int} {n : Nat}
    (h : ∀ k < n, f k = g k) :
    (List.range n).map f = (List.range n).map g :=
  List.map_congr_left fun k hk => h k (List.mem_range.mp hk)

theorem naMul_comm (a b : ZPoly) (n : Nat) : naMul a b n = naMul b a n := by
  unfold naMul
  refine rangeMap_congr fun k _ => ?_
  rw [Finset.sum_comm]
  refine Finset.sum_congr rfl fun i _ => Finset.sum_congr rfl fun j _ => ?_
  rw [Nat.add_comm j i, mul_comm (a.getD j 0) (b.getD i 0)]

/-- List extensionality through `getD` for two length-`n` polynomials. -/
theorem poly_ext {p r : ZPoly} {n : Nat} (hp : p.length = n) (hr : r.length = n)
    (h : ∀ k < n, p.getD k 0 = r.getD k 0) : p = r := by
  apply List.ext_getElem (by omega)
  intro i h1 h2
  have hi := h i (by omega)
  rw [List.getD_eq_getElem?_getD, List.getD_eq_getElem?_getD,
    List.getElem?_eq_getElem h1, List.getElem?_eq_getElem h2] at hi
  simpa using hi

theorem naMul_add_left (a b c : ZPoly) (n : Nat) :
    naMul (polyAdd a b n) c n = polyAdd (naMul a c n) (naMul b c n) n := by
  refine poly_ext (length_rangeMap _ n) (length_rangeMap _ n) fun k hk => ?_
  rw [naMul_getD _ _ hk, polyAdd_getD _ _ hk, naMul_getD _ _ hk,
    naMul_getD _ _ hk, ← Finset.sum_add_distrib]
  refine Finset.sum_congr rfl fun i hi => ?_
  rw [← Finset.sum_add_distrib]
  refine Finset.sum_congr rfl fun j _ => ?_
  rw [polyAdd_getD a b (List.mem_range.mp hi)]
  split <;> ring

/-! ## Associativity of the negacyclic product -/

theorem flatten_left {P : Prop} [Decidable P] {n : Nat} (eps cl : Int)
    (Q : Nat → Nat → Prop) [∀ i j, Decidable (Q i j)] (g : Nat → Nat → Int) :
    (if P then eps * ((∑ i ∈ Finset.range n, ∑ j ∈ Finset.range n,
        if Q i j then g i j else 0) * cl) else 0)
      = ∑ i ∈ Finset.range n, ∑ j ∈ Finset.range n,
          if P ∧ Q i j then eps * (g i j * cl) else 0 := by
  by_cases hP : P
  · rw [if_pos hP, Finset.sum_mul, Finset.mul_sum]
    refine Finset.sum_congr rfl fun i _ => ?_
    rw [Finset.sum_mul, Finset.mul_sum]
    refine Finset.sum_congr rfl fun j _ => ?_
    by_cases hQ : Q i j
    · rw [if_pos hQ, if_pos ⟨hP, hQ⟩]
    · rw [if_neg hQ, if_neg (fun hc => hQ hc.2)]
      ring
  · rw [if_neg hP]
    symm
    refine Finset.sum_eq_zero fun i _ => Finset.sum_eq_zero fun j _ => ?_
    rw [if_neg (fun hc => hP hc.1)]

theorem flatten_right {P : Prop} [Decidable P] {n : Nat} (eps ai : Int)
    (Q : Nat → Nat → Prop) [∀ i j, Decidable (Q i j)] (g : Nat → Nat → Int) :
    (if P then eps * (ai * ∑ i ∈ Finset.range n, ∑ j ∈ Finset.range n,
        if Q i j then g i j else 0) else 0)
      = ∑ i ∈ Finset.range n, ∑ j ∈ Finset.range n,
          if P ∧ Q i j then eps * (ai * g i j) else 0 := by
  by_cases hP : P
  · rw [if_pos hP, Finset.mul_sum, Finset.mul_sum]
    refine Finset.sum_congr rfl fun i _ => ?_
    rw [Finset.mul_sum, Finset.mul_sum]
    refine Finset.sum_congr rfl fun j _ => ?_
    by_cases hQ : Q i j
    · rw [if_pos hQ, if_pos ⟨hP, hQ⟩]
    · rw [if_neg hQ, if_neg (fun hc => hQ hc.2)]
      ring
  · rw [if_neg hP]
    symm
    refine Finset.sum_eq_zero fun i _ => Finset.sum_eq_zero fun j _ => ?_
    rw [if_neg (fun hc => hP hc.1)]

theorem wsgn_comp_left {n : Nat} (_hn : 0 < n) {i j l : Nat} (hi : i < n) (hj : j < n)
    (hl : l < n) :
    wsgn n ((i + j) % n + l) * wsgn n (i + j) = wsgn3 n (i + j + l) := by
  rcases Nat.lt_or_ge (i + j) n with h1 | h1
  · rw [Nat.mod_eq_of_lt h1]
    unfold wsgn wsgn3
    split_ifs <;> first | decide | omega
  · have hmod : (i + j) % n = i + j - n := by
      rw [Nat.mod_eq_sub_mod h1, Nat.mod_eq_of_lt (by omega)]
    rw [hmod]
    unfold wsgn wsgn3
    split_ifs <;> first | decide | omega

/-- Collapse a sum over `m` of a term forcing `m = v`. -/
theorem sum_pick {n : Nat} (_hn : 0 < n) (v : Nat) (hv : v < n)
    (P : Nat → Prop) [DecidablePred P] (E : Nat → Int) :
    (∑ m ∈ Finset.range n, if (P m ∧ v = m) then E m else 0)
      = if P v then E v else 0 := by
  have hsplit : ∀ m, (if (P m ∧ v = m) then E m else 0)
      = if m = v then (if P m then E m else 0) else 0 := by
    intro m
    by_cases h1 : m = v
    · subst h1
      by_cases h2 : P m
      · rw [if_pos ⟨h2, rfl⟩, if_pos rfl, if_pos h2]
      · rw [if_neg (fun hc => h2 hc.1), if_pos rfl, if_neg h2]
    · rw [if_neg (fun hc => h1 hc.2.symm), if_neg h1]
  rw [Finset.sum_congr rfl fun m _ => hsplit m,
    Finset.sum_ite_eq' (Finset.range n) v, if_pos (Finset.mem_range.mpr hv)]

theorem naMulNaMul_left (a b c : ZPoly) {n : Nat} (hn : 0 < n) {k : Nat}
    (hk : k < n) :
    (naMul (naMul a b n) c n).getD k 0 =
      ∑ l ∈ Finset.range n, ∑ i ∈ Finset.range n, ∑ j ∈ Finset.range n,
        if (i + j + l) % n = k then
          wsgn3 n (i + j + l) * (a.getD i 0 * b.getD j 0 * c.getD l 0)
        else 0 := by
  rw [naMul_getD _ _ hk]
  trans (∑ m ∈ Finset.range n, ∑ l ∈ Finset.range n,
      ∑ i ∈ Finset.range n, ∑ j ∈ Finset.range n,
        if ((m + l) % n = k ∧ (i + j) % n = m) then
          wsgn n (m + l) * (wsgn n (i + j) * (a.getD i 0 * b.getD j 0) * c.getD l 0)
        else 0)
  · refine Finset.sum_congr rfl fun m hm => Finset.sum_congr rfl fun l _ => ?_
    rw [naMul_getD a b (Finset.mem_range.mp hm)]
    exact flatten_left _ _ _ _
  trans (∑ l ∈ Finset.range n, ∑ i ∈ Finset.range n, ∑ j ∈ Finset.range n,
      ∑ m ∈ Finset.range n,
        if ((m + l) % n = k ∧ (i + j) % n = m) then
          wsgn n (m + l) * (wsgn n (i + j) * (a.getD i 0 * b.getD j 0) * c.getD l 0)
        else 0)
  · rw [Finset.sum_comm]
    refine Finset.sum_congr rfl fun l _ => ?_
    rw [Finset.sum_comm]
    refine Finset.sum_congr rfl fun i _ => ?_
    rw [Finset.sum_comm]
  refine Finset.sum_congr rfl fun l hl => Finset.sum_congr rfl fun i hi =>
    Finset.sum_congr rfl fun j hj => ?_
  rw [sum_pick hn ((i + j) % n) (Nat.mod_lt _ hn) _ _]
  rw [Nat.mod_add_mod]
  by_cases hc : (i + j + l) % n = k
  · rw [if_pos hc, if_pos hc]
    have hs := wsgn_comp_left hn (Finset.mem_range.mp hi)
      (Finset.mem_range.mp hj) (Finset.mem_range.mp hl)
    calc wsgn n ((i + j) % n + l) *
          (wsgn n (i + j) * (a.getD i 0 * b.getD j 0) * c.getD l 0)
        = (wsgn n ((i + j) % n + l) * wsgn n (i + j)) *
            (a.getD i 0 * b.getD j 0 * c.getD l 0) := by ring
      _ = wsgn3 n (i + j + l) * (a.getD i 0 * b.getD j 0 * c.getD l 0) := by
          rw [hs]
  · rw [if_neg hc, if_neg hc]

theorem naMulNaMul_right (a b c : ZPoly) {n : Nat} (hn : 0 < n) {k : Nat}
    (hk : k < n) :
    (naMul a (naMul b c n) n).getD k 0 =
      ∑ l ∈ Finset.range n, ∑ i ∈ Finset.range n, ∑ j ∈ Finset.range n,
        if (i + j + l) % n = k then
          wsgn3 n (i + j + l) * (a.getD i 0 * b.getD j 0 * c.getD l 0)
        else 0 := by
  rw [naMul_getD _ _ hk]
  trans (∑ i ∈ Finset.range n, ∑ m ∈ Finset.range n,
      ∑ j ∈ Finset.range n, ∑ l ∈ Finset.range n,
        if ((i + m) % n = k ∧ (j + l) % n = m) then
          wsgn n (i + m) * (a.getD i 0 * (wsgn n (j + l) * (b.getD j 0 * c.getD l 0)))
        else 0)
  · refine Finset.sum_congr rfl fun i _ => Finset.sum_congr rfl fun m hm => ?_
    rw [naMul_getD b c (Finset.mem_range.mp hm)]
    exact flatten_right _ _ _ _
  trans (∑ i ∈ Finset.range n, ∑ j ∈ Finset.range n, ∑ l ∈ Finset.range n,
      ∑ m ∈ Finset.range n,
        if ((i + m) % n = k ∧ (j + l) % n = m) then
          wsgn n (i + m) * (a.getD i 0 * (wsgn n (j + l) * (b.getD j 0 * c.getD l 0)))
        else 0)
  · refine Finset.sum_congr rfl fun i _ => ?_
    rw [Finset.sum_comm]
    refine Finset.sum_congr rfl fun j _ => ?_
    rw [Finset.sum_comm]
  trans (∑ i ∈ Finset.range n, ∑ j ∈ Finset.range n, ∑ l ∈ Finset.range n,
      if (i + j + l) % n = k then
        wsgn3 n (i + j + l) * (a.getD i 0 * b.getD j 0 * c.getD l 0)
      else 0)
  · refine Finset.sum_congr rfl fun i hi => Finset.sum_congr rfl fun j hj =>
      Finset.sum_congr rfl fun l hl => ?_
    rw [sum_pick hn ((j + l) % n) (Nat.mod_lt _ hn) _ _]
    rw [Nat.add_mod_mod]
    rw [show i + (j + l) = i + j + l from by omega]
    by_cases hc : (i + j + l) % n = k
    · rw [if_pos hc, if_pos hc]
      have hs := wsgn_comp_left hn (Finset.mem_range.mp hj)
        (Finset.mem_range.mp hl) (Finset.mem_range.mp hi)
      rw [show j + l + i = i + j + l from by omega] at hs
      rw [Nat.add_comm i ((j + l) % n)]
      calc wsgn n ((j + l) % n + i) *
            (a.getD i 0 * (wsgn n (j + l) * (b.getD j 0 * c.getD l 0)))
          = (wsgn n ((j + l) % n + i) * wsgn n (j + l)) *
              (a.getD i 0 * b.getD j 0 * c.getD l 0) := by ring
        _ = wsgn3 n (i + j + l) * (a.getD i 0 * b.getD j 0 * c.getD l 0) := by
            rw [hs]
    · rw [if_neg hc, if_neg hc]
  trans (∑ i ∈ Finset.range n, ∑ l ∈ Finset.range n, ∑ j ∈ Finset.range n,
      if (i + j + l) % n = k then
        wsgn3 n (i + j + l) * (a.getD i 0 * b.getD j 0 * c.getD l 0)
      else 0)
  · refine Finset.sum_congr rfl fun i _ => ?_
    rw [Finset.sum_comm]
  rw [Finset.sum_comm]

/-- The negacyclic product is associative. -/
theorem naMul_assoc (a b c : ZPoly) {n : Nat} (hn : 0 < n) :
    naMul (naMul a b n) c n = naMul a (naMul b c n) n := by
  refine poly_ext (length_rangeMap _ n) (length_rangeMap _ n) fun k hk => ?_
  rw [naMulNaMul_left a b c hn hk, naMulNaMul_right a b c hn hk]

/-! ## Congruence mod `q` through the polynomial operations -/

theorem sum_mod_congr {s : Finset Nat} {f g : Nat → Int}
    (h : ∀ i ∈ s, f i % 12289 = g i % 12289) :
    (∑ i ∈ s, f i) % 12289 = (∑ i ∈ s, g i) % 12289 := by
  rw [Finset.sum_int_mod, Finset.sum_congr rfl h, ← Finset.sum_int_mod]

theorem naMul_cong_left {a a' b : ZPoly} {n : Nat}
    (h : polyCong a a' n) : polyCong (naMul a b n) (naMul a' b n) n := by
  intro k hk
  rw [naMul_getD _ _ hk, naMul_getD _ _ hk]
  refine sum_mod_congr fun i hi => sum_mod_congr fun j _ => ?_
  by_cases hc : (i + j) % n = k
  · rw [if_pos hc, if_pos hc]
    rw [Int.mul_emod, Int.mul_emod (a.getD i 0), h i (Finset.mem_range.mp hi),
      ← Int.mul_emod (a'.getD i 0), ← Int.mul_emod]
  · rw [if_neg hc, if_neg hc]

theorem naMul_cong_right (a : ZPoly) {b b' : ZPoly} {n : Nat}
    (h : polyCong b b' n) : polyCong (naMul a b n) (naMul a b' n) n := by
  rw [naMul_comm a b n, naMul_comm a b' n]
  exact naMul_cong_left h

/-! ## Coefficient bounds from the norm bound -/

theorem normSq_nonneg (a : ZPoly) : 0 ≤ normSq a := by
  refine List.sum_nonneg fun x hx => ?_
  obtain ⟨z, -, rfl⟩ := List.mem_map.mp hx
  exact mul_self_nonneg z

theorem coeff_sq_le_normSq {a : ZPoly} {z : Int} (hz : z ∈ a) :
    z * z ≤ normSq a := by
  refine List.single_le_sum (fun x hx => ?_) _ (List.mem_map_of_mem _ hz)
  obtain ⟨y, -, rfl⟩ := List.mem_map.mp hx
  exact mul_self_nonneg y

theorem natAbs_le_of_normSq {a : ZPoly} {z : Int} (hz : z ∈ a)
    (hb : normSq a ≤ 34034726) : z.natAbs ≤ 5833 := by
  by_contra hlt
  push_neg at hlt
  have h1 : (5834 : Nat) * 5834 ≤ z.natAbs * z.natAbs :=
    Nat.mul_le_mul hlt hlt
  have h2 : (z.natAbs * z.natAbs : Int) = z * z := Int.natAbs_mul_self
  have h3 := coeff_sq_le_normSq hz
  omega

/-! ## Exactness of the centred reduction -/

theorem centeredMod_eq {z w : Int} (hcong : z % 12289 = w % 12289)
    (hlo : -6144 ≤ z) (hhi : z ≤ 6144) : centeredMod w = z := by
  simp only [centeredMod]
  split <;> omega

/-! ## Success facts for `compress` and the signing loop -/

theorem compress_ok_fit {v : List Int} {B : Nat} {w : Bytes}
    (hok : compress v B = .ok w) : totalLength v ≤ 8 * B ∧ v ≠ [] := by
  have hsum : ((v.map compress_coefficient).map fun p => p.1).sum
      = totalLength v := by
    rw [List.map_map]
    rfl
  simp only [compress] at hok
  by_cases h1 : ((v.map compress_coefficient).map fun p => p.1).sum > B * 8
  · rw [if_pos h1] at hok
    exact absurd hok (by simp)
  · rw [if_neg h1] at hok
    by_cases h2 : v.isEmpty = true
    · rw [if_pos h2] at hok
      exact absurd hok (by simp)
    · rw [hsum] at h1
      exact ⟨by omega, by simpa using h2⟩

theorem compress_ok_length {v : List Int} {B : Nat} {w : Bytes}
    (hok : compress v B = .ok w) : w.length = B := by
  obtain ⟨hfit, hne⟩ := compress_ok_fit hok
  obtain ⟨w', hok', hlen, -, -⟩ := compress_ok_spec hne hfit
  rw [hok] at hok'
  injection hok' with hww
  rw [hww]
  exact hlen

theorem signAttempts_ok {n plen : Nat} {c f g F G : ZPoly}
    {samp : Nat → ZPoly × ZPoly} : ∀ {fuel i : Nat} {w : Bytes},
    signAttempts n plen c f g F G samp i fuel = .ok w →
    ∃ z1 z2,
      normSq (mkS1 n c g G z1 z2) + normSq (mkS2 n f F z1 z2) ≤ 34034726 ∧
      compress (mkS2 n f F z1 z2) plen = .ok w := by
  intro fuel
  induction fuel with
  | zero =>
      intro i w h
      exact absurd h (by simp [signAttempts])
  | succ fu ih =>
      intro i w h
      rw [signAttempts] at h
      by_cases hb : normSq (mkS1 n c g G (samp i).1 (samp i).2) +
          normSq (mkS2 n f F (samp i).1 (samp i).2) ≤ 34034726
      · rw [if_pos hb] at h
        cases hcp : compress (mkS2 n f F (samp i).1 (samp i).2) plen with
        | ok bytes =>
            rw [hcp] at h
            have h' : (PRes.ok bytes : PRes Bytes) = .ok w := h
            injection h' with hbw
            exact ⟨(samp i).1, (samp i).2, hb, by rw [hcp, hbw]⟩
        | fail =>
            rw [hcp] at h
            exact ih h
        | crash =>
            rw [hcp] at h
            exact ih h
      · rw [if_neg hb] at h
        exact ih h

theorem getD_mem_of_lt {p : ZPoly} {n k : Nat} (hp : p.length = n)
    (hk : k < n) : p.getD k 0 ∈ p := by
  rw [List.getD_eq_getElem?_getD, List.getElem?_eq_getElem (by omega)]
  exact List.getElem_mem _

/-- The verifier's centred recovery `c − s2·h mod q` reproduces the signer's
`s1 = c − (z1·g + z2·G)` exactly, given the public-key congruences
`f·h ≡ g` and `F·h ≡ G (mod q)` and the coefficient bound from the norm
check. -/
theorem s1_recovered {n : Nat} (hn : 0 < n) (c f g F G h z1 z2 : ZPoly)
    (hkg : polyCong (naMul f h n) g n)
    (hkG : polyCong (naMul F h n) G n)
    (hb : ∀ z ∈ mkS1 n c g G z1 z2, z.natAbs ≤ 5833) :
    cmod (polySub c (naMul (mkS2 n f F z1 z2) h n) n) n = mkS1 n c g G z1 z2 := by
  have he : naMul (mkS2 n f F z1 z2) h n
      = polyAdd (naMul z1 (naMul f h n) n) (naMul z2 (naMul F h n) n) n := by
    show naMul (polyAdd (naMul z1 f n) (naMul z2 F n) n) h n = _
    rw [naMul_add_left, naMul_assoc z1 f h hn, naMul_assoc z2 F h hn]
  refine poly_ext (length_rangeMap _ n) (length_rangeMap _ n) fun k hk => ?_
  rw [cmod_getD _ hk]
  have hX : (polySub c (naMul (mkS2 n f F z1 z2) h n) n).getD k 0
      = c.getD k 0 - ((naMul z1 (naMul f h n) n).getD k 0 +
          (naMul z2 (naMul F h n) n).getD k 0) := by
    rw [polySub_getD _ _ hk, he, polyAdd_getD _ _ hk]
  have hS : (mkS1 n c g G z1 z2).getD k 0
      = c.getD k 0 - ((naMul z1 g n).getD k 0 + (naMul z2 G n).getD k 0) := by
    show (polySub c (polyAdd (naMul z1 g n) (naMul z2 G n) n) n).getD k 0 = _
    rw [polySub_getD _ _ hk, polyAdd_getD _ _ hk]
  have h1 := naMul_cong_right z1 hkg k hk
  have h2 := naMul_cong_right z2 hkG k hk
  have habs := hb _ (getD_mem_of_lt (length_rangeMap _ n) hk)
  refine centeredMod_eq ?_ (by omega) (by omega)
  rw [hX, hS]
  omega

/-! ## Claim C1: sign/verify round trip -/

/-- C1: whenever the (spec-modelled) signing procedure returns a signature,
the (spec-modelled) verifier accepts it.  The keypair produced by `keygen` is
modelled by the spec invariants it guarantees (spec §3): the public key
congruences `f·h ≡ g (mod q)` and `F·h ≡ G (mod q)`, which follow from
`h = g·f⁻¹ mod q` and `f·G − g·F = q`.  `hash` models `HashToPoint` and
`samp` the sampler output as a function of the RNG stream. -/
theorem C1_sign_verify_roundtrip
    (n logn plen : Nat) (hn : 0 < n)
    (hash : List Nat → List Nat → ZPoly)
    (samp : (Nat → Nat) → Nat → ZPoly × ZPoly)
    (msg : List Nat) (f g F G h : ZPoly) (rng : Nat → Nat)
    (hkg : polyCong (naMul f h n) g n)
    (hkG : polyCong (naMul F h n) G n)
    (sig : SigModel)
    (hsig : signModel n logn plen hash samp msg f g F G rng = .ok sig) :
    verifyModel n logn plen hash msg sig h = .ok true := by
  simp only [signModel] at hsig
  cases hsa : signAttempts n plen (hash ((List.range 40).map rng) msg) f g F G
      (samp rng) 0 100 with
  | fail => rw [hsa] at hsig; exact absurd hsig (by simp)
  | crash => rw [hsa] at hsig; exact absurd hsig (by simp)
  | ok payload =>
    rw [hsa] at hsig
    have hsig' : (PRes.ok ⟨48 ||| logn, (List.range 40).map rng, payload⟩
        : PRes SigModel) = .ok sig := hsig
    injection hsig' with hsigeq
    subst hsigeq
    obtain ⟨z1, z2, hnorm, hcomp⟩ := signAttempts_ok hsa
    have hn1 : normSq (mkS1 n (hash ((List.range 40).map rng) msg) g G z1 z2)
        ≤ 34034726 := by
      have := normSq_nonneg (mkS2 n f F z1 z2)
      omega
    have hn2 : normSq (mkS2 n f F z1 z2) ≤ 34034726 := by
      have := normSq_nonneg (mkS1 n (hash ((List.range 40).map rng) msg) g G z1 z2)
      omega
    have hs2len : (mkS2 n f F z1 z2).length = n := length_rangeMap _ n
    have hs2ne : mkS2 n f F z1 z2 ≠ [] := by
      intro he
      rw [he] at hs2len
      simp at hs2len
      omega
    obtain ⟨hfit, -⟩ := compress_ok_fit hcomp
    have hplen : payload.length = plen := compress_ok_length hcomp
    have habs2 : ∀ z ∈ mkS2 n f F z1 z2, z.natAbs ≤ 5833 :=
      fun z hz => natAbs_le_of_normSq hz hn2
    obtain ⟨w, hokw, hwlen, hdec⟩ := compress_decompress hs2ne hfit
      (fun cc hcc => le_trans (habs2 _ (List.dropLast_subset _ hcc)) (by norm_num))
      (lt_of_le_of_lt (habs2 _ (getLastD_mem hs2ne)) (by norm_num))
    rw [hcomp] at hokw
    injection hokw with hwp
    subst hwp
    rw [hs2len] at hdec
    simp only [verifyModel]
    rw [if_neg (fun hc => hc rfl)]
    rw [if_neg (fun hc => hc (by simp))]
    rw [if_neg (fun hc => hc (by simpa using hplen))]
    simp only [hdec]
    have hrec := s1_recovered hn (hash ((List.range 40).map rng) msg) f g F G h z1 z2
      hkg hkG (fun z hz => natAbs_le_of_normSq hz hn1)
    rw [hrec]
    simp only [PRes.ok.injEq]
    exact decide_eq_true hnorm

/-- C1 witness: a concrete one-coefficient instance — key `f = [1]`, `g = [0]`,
`F = [0]`, `G = [12289]`, `h = [0]`, constant hash and sampler, zero RNG —
signs to `⟨48, 40-byte salt, [0, 128]⟩` and verifies. -/
theorem C1_witness :
    verifyModel 1 0 2 (fun _ _ => [0]) [] ⟨48, List.replicate 40 0, [0, 128]⟩ [0]
      = .ok true :=
  C1_sign_verify_roundtrip 1 0 2 (by decide) (fun _ _ => [0])
    (fun _ _ => ([0], [0])) [] [1] [0] [0] [12289] [0] (fun _ => 0)
    (by decide) (by decide) ⟨48, List.replicate 40 0, [0, 128]⟩ (by decide)

/-! ## Claim C8: determinism in the RNG stream -/

/-- C8: the signing model is a function of the RNG byte stream: two runs over
streams that agree byte-for-byte produce identical signatures.  (In the model
the salt and the sampler input are drawn from the stream, exactly the spec's
"the salt and all sampler consumption come from the RNG in that order".) -/
theorem C8_sign_deterministic (n logn plen : Nat)
    (hash : List Nat → List Nat → ZPoly)
    (samp : (Nat → Nat) → Nat → ZPoly × ZPoly)
    (msg : List Nat) (f g F G : ZPoly) (r1 r2 : Nat → Nat)
    (hr : ∀ i, r1 i = r2 i) :
    signModel n logn plen hash samp msg f g F G r1
      = signModel n logn plen hash samp msg f g F G r2 := by
  have : r1 = r2 := funext hr
  rw [this]

/-- C8 witness: two syntactically different but pointwise-equal streams. -/
theorem C8_witness :
    signModel 1 0 2 (fun _ _ => [0]) (fun _ _ => ([0], [0])) [] [1] [0] [0]
        [12289] (fun _ => 0)
      = signModel 1 0 2 (fun _ _ => [0]) (fun _ _ => ([0], [0])) [] [1] [0] [0]
        [12289] (fun i => 0 * i) :=
  C8_sign_deterministic 1 0 2 (fun _ _ => [0]) (fun _ _ => ([0], [0])) [] [1]
    [0] [0] [12289] (fun _ => 0) (fun i => 0 * i) (fun i => by simp)

/-- C2: refuted — on a full-length Falcon-512 signature (header `0x39`,
40-byte salt, 625-byte payload) the verification pipeline panics inside
`decompress` instead of returning `false`. -/
theorem C2_verify_panics (hash : List Nat → List Nat → ZPoly) (h : ZPoly)
    (msg : List Nat) :
    verifyModel 512 9 625 hash msg ⟨57, List.replicate 40 0, crafted625⟩ h
      = .crash := by
  simp only [verifyModel]
  rw [if_neg (fun hc => hc rfl)]
  rw [if_neg (fun hc => hc (by decide))]
  rw [if_neg (fun hc => hc (by decide))]
  rw [crafted625_crash]

/-! ## Claim C9: serialised lengths

Modelled from the spec (§6, "Serialised layouts"): each polynomial is packed
as fixed-width big-endian bit fields, padded to a byte boundary. -/

/-- The `w` low bits of a coefficient (two's complement for negatives), most
significant first. -/
def fieldBits (w : Nat) (z : Int) : List Bool :=
  (List.range w).map fun j => Nat.testBit (Int.toNat (z % (2 ^ w : Int))) (w - 1 - j)

/-- Pack a bit list big-endian into bytes, zero-padded to a byte boundary. -/
def packBits (bits : List Bool) : Bytes :=
  (List.range ((bits.length + 7) / 8)).map fun i =>
    ((List.range 8).map fun j => if bits.getD (8 * i + j) false then 128 >>> j else 0).sum

/-- `SecretKey::to_bytes` (spec §6): header `0x50 | logn`, then `f`, `g` at
width `w` and `F` at width 8. -/
def skToBytes (logn w : Nat) (f g F : ZPoly) : Bytes :=
  (80 ||| logn) :: (packBits ((f.map (fieldBits w)).flatten) ++
    packBits ((g.map (fieldBits w)).flatten) ++
    packBits ((F.map (fieldBits 8)).flatten))

/-- `PublicKey::to_bytes` (spec §6): header `0x00 | logn`, then `h` at width
14. -/
def pkToBytes (logn : Nat) (h : ZPoly) : Bytes :=
  logn :: packBits ((h.map (fieldBits 14)).flatten)

/-- `Signature::to_bytes` (spec §6): header, salt, padded payload. -/
def sigToBytes (s : SigModel) : Bytes := s.header :: (s.salt ++ s.payload)

theorem length_packBits (bits : List Bool) :
    (packBits bits).length = (bits.length + 7) / 8 := by
  simp [packBits]

theorem length_fieldBits (w : Nat) (z : Int) : (fieldBits w z).length = w := by
  simp [fieldBits]

theorem length_flatten_fieldBits (w : Nat) (v : ZPoly) :
    ((v.map (fieldBits w)).flatten).length = w * v.length := by
  induction v with
  | nil => simp
  | cons z v ih =>
      simp only [List.map_cons, List.flatten_cons, List.length_append,
        List.length_cons, ih, length_fieldBits]
      ring

/-- C9: with the Falcon-512 parameters the serialised secret key is 1281
bytes, the public key 897 bytes, and any signature the signing model emits
serialises to `1 + 40 + plen` bytes — 666 for the Falcon-512 payload budget
`plen = 625`. -/
theorem C9_to_bytes_lengths (f g F h : ZPoly)
    (hf : f.length = 512) (hg : g.length = 512) (hF : F.length = 512)
    (hh : h.length = 512) :
    (skToBytes 9 6 f g F).length = 1281 ∧
    (pkToBytes 9 h).length = 897 ∧
    (∀ (n logn plen : Nat) (hash : List Nat → List Nat → ZPoly)
        (samp : (Nat → Nat) → Nat → ZPoly × ZPoly) (msg : List Nat)
        (f' g' F' G' : ZPoly) (rng : Nat → Nat) (sig : SigModel),
      signModel n logn plen hash samp msg f' g' F' G' rng = .ok sig →
      (sigToBytes sig).length = 41 + plen) ∧
    (∀ (hash : List Nat → List Nat → ZPoly)
        (samp : (Nat → Nat) → Nat → ZPoly × ZPoly) (msg : List Nat)
        (f' g' F' G' : ZPoly) (rng : Nat → Nat) (sig : SigModel),
      signModel 512 9 625 hash samp msg f' g' F' G' rng = .ok sig →
      (sigToBytes sig).length = 666) := by
  have hsig : ∀ (n logn plen : Nat) (hash : List Nat → List Nat → ZPoly)
      (samp : (Nat → Nat) → Nat → ZPoly × ZPoly) (msg : List Nat)
      (f' g' F' G' : ZPoly) (rng : Nat → Nat) (sig : SigModel),
      signModel n logn plen hash samp msg f' g' F' G' rng = .ok sig →
      (sigToBytes sig).length = 41 + plen := by
    intro n logn plen hash samp msg f' g' F' G' rng sig hs
    simp only [signModel] at hs
    cases hsa : signAttempts n plen (hash ((List.range 40).map rng) msg)
        f' g' F' G' (samp rng) 0 100 with
    | fail => rw [hsa] at hs; exact absurd hs (by simp)
    | crash => rw [hsa] at hs; exact absurd hs (by simp)
    | ok payload =>
        rw [hsa] at hs
        have hs' : (PRes.ok ⟨48 ||| logn, (List.range 40).map rng, payload⟩
            : PRes SigModel) = .ok sig := hs
        injection hs' with hseq
        subst hseq
        obtain ⟨z1, z2, -, hcomp⟩ := signAttempts_ok hsa
        have hplen := compress_ok_length hcomp
        simp [sigToBytes, hplen]
        omega
  refine ⟨?_, ?_, hsig, fun hash samp msg f' g' F' G' rng sig hs => ?_⟩
  · simp only [skToBytes, List.length_cons, List.length_append, length_packBits,
      length_flatten_fieldBits, hf, hg, hF]
  · simp only [pkToBytes, List.length_cons, length_packBits,
      length_flatten_fieldBits, hh]
  · rw [hsig 512 9 625 hash samp msg f' g' F' G' rng sig hs]

/-- C9 witness: concrete all-zero 512-coefficient polynomials, and the
one-coefficient signing run of the C1 witness. -/
theorem C9_witness :
    (skToBytes 9 6 (List.replicate 512 0) (List.replicate 512 0)
      (List.replicate 512 0)).length = 1281 ∧
    (pkToBytes 9 (List.replicate 512 0)).length = 897 ∧
    (sigToBytes ⟨48, List.replicate 40 0, [0, 128]⟩).length = 41 + 2 := by
  obtain ⟨h1, h2, h3, -⟩ := C9_to_bytes_lengths (List.replicate 512 0)
    (List.replicate 512 0) (List.replicate 512 0) (List.replicate 512 0)
    (by simp) (by simp) (by simp) (by simp)
  exact ⟨h1, h2, h3 1 0 2 (fun _ _ => [0]) (fun _ _ => ([0], [0])) [] [1] [0]
    [0] [12289] (fun _ => 0) ⟨48, List.replicate 40 0, [0, 128]⟩ (by decide)⟩
